import Mathlib

/-!
Verification of the ImproveDoc Markdown pipeline.

This development embeds the pure core of the repository:

* `MarkdownProcessor.parse_sections`, `MarkdownProcessor.reassemble` and
  `MarkdownProcessor.extract_final_content` from `lib/content_processor.py`;
* `ContentEnhancer.enhance_content` from `src/lib/enhancer.py` (the version
  with the placeholder-repair guard) and from `lib/enhancer.py` (the version
  that caps the number of processed sections at 5).

Documents are modelled as lists of characters (`Str`), a faithful
representation of Python `str` for the ASCII documents the tool handles.
The multiline regex `(?m)^(#+)\s+(.*?)$` used by `parse_sections` is
modelled in two steps that together reproduce the regex's matches: because
`\s+` also matches newlines, a line consisting of `#` marks followed by
nothing but whitespace absorbs the following whitespace-only lines and the
next line holding text, which becomes the heading's title text; the
scanner `mergeLines` performs exactly this absorption on the line list
(canonicalizing the matched whitespace run, which nothing downstream
reads), after which `headInfo` matches the regex line by line (a run of
`#` marks followed by at least one whitespace character introduces a
heading, whose text is the stripped remainder of the line); the
fenced-code-block regex of
`extract_final_content` is modelled by an explicit left-to-right scanner.
The external CrewAI execution capability is simulated by a `SimOutcome`
recording whether `crew.kickoff()` raises or returns text, which linking
tasks carry an output, and whether the guard's internal `try` block raises.
-/

namespace ImproveDoc

/-- A Python string, modelled as its list of characters. -/
abbrev Str := List Char

/-- Python `str.lstrip()`: drop leading whitespace characters. -/
def ltrim (s : Str) : Str := s.dropWhile Char.isWhitespace

/-- Python `str.rstrip()`: drop trailing whitespace characters. -/
def rtrim (s : Str) : Str := (s.reverse.dropWhile Char.isWhitespace).reverse

/-- Python `str.strip()`: drop whitespace at both ends. -/
def trim (s : Str) : Str := rtrim (ltrim s)

/-- Split a string into its lines at `'\n'`, like iterating the lines the
multiline regex anchors `^`/`$` delimit.  `splitLines [] = [[]]`: the empty
string is one empty line. -/
def splitLines : Str → List Str
  | [] => [[]]
  | c :: cs =>
    if c = '\n' then [] :: splitLines cs
    else
      match splitLines cs with
      | l :: ls => (c :: l) :: ls
      | [] => [[c]]

/-- Join parts with `'\n'`, modelling Python `"\n".join(parts)`; inverse of
`splitLines` and also the final join of `reassemble`. -/
def joinLines : List Str → Str
  | [] => []
  | [l] => l
  | l :: l' :: ls => l ++ '\n' :: joinLines (l' :: ls)

/-- Heading detection for one line, modelling a match of the regex
`(?m)^(#+)\s+(.*?)$` that is confined to the line: one or more `#`
characters anchored at line start, followed by at least one whitespace
character; the heading level is the number of `#` marks and the heading
text is the stripped remainder.  A match whose `\s+` crosses a newline
spans several input lines; `mergeLines` below fuses those lines first, so
that `headInfo` applied after it reads off every match of the regex. -/
def headInfo (l : Str) : Option (Nat × Str) :=
  let hashes := l.takeWhile (· = '#')
  let rest := l.drop hashes.length
  match rest with
  | [] => none
  | c :: _ =>
    if 1 ≤ hashes.length ∧ c.isWhitespace then some (hashes.length, trim rest)
    else none

/-- Group a document's lines into the preamble lines before the first heading
and the list of (heading line, body lines) groups; this is the line-level
form of the header scan in `parse_sections` (each heading's body runs to the
start of the next heading). -/
def splitDoc : List Str → List Str × List (Str × List Str)
  | [] => ([], [])
  | l :: rest =>
    let p := splitDoc rest
    match headInfo l with
    | some _ => ([], (l, p.1) :: p.2)
    | none => (l :: p.1, p.2)

/-- One parsed section: heading level (0 for the preamble), stripped heading
text, stripped body, the full heading line, and the original position
(absent for the preamble, matching the missing `original_position` key of
the `_intro_` dictionary in the source). -/
structure Sec where
  level : Nat
  title : Str
  content : Str
  full_header : Str
  original_position : Option Nat
deriving DecidableEq, Repr

/-- Section identifiers: `SecId.intro` models the reserved key `"_intro_"`,
`SecId.sec i` models the synthetic key `"section_i"`. -/
inductive SecId where
  | intro
  | sec (i : Nat)
deriving DecidableEq, Repr

/-- The sentinel heading text appended by `parse_sections`. -/
def endSentinel : Str := "__END__".data

/-- The sentinel heading line `# __END__` that `parse_sections` appends
(after the `'\n'` that precedes it). -/
def endLine : Str := "# __END__".data

/-- Python's `in` on strings: does `pat` occur as a contiguous substring? -/
def hasSubstr (pat : Str) : Str → Bool
  | [] => pat.isPrefixOf []
  | c :: rest => pat.isPrefixOf (c :: rest) || hasSubstr pat rest

/-- A line at which a regex match starts but whose own text cannot finish
the match: one or more `#` marks followed by nothing but whitespace.  At
such a line `\s+` runs across the newline, so the match extends into the
following lines. -/
def danglingStart (l : Str) : Bool :=
  decide (l.takeWhile (fun c => decide (c = '#')) ≠ []) &&
    (l.dropWhile (fun c => decide (c = '#'))).all Char.isWhitespace

/-- The cross-line behaviour of `(?m)^(#+)\s+(.*?)$`: a dangling `#` line
absorbs the following whitespace-only lines and then the next line holding
text, which supplies the heading's title (`(.*?)$` captures to that line's
end); the merged heading line then matches `headInfo` with exactly the
level and stripped title the regex produces.  The whitespace run the match
consumed is canonicalized to single spaces inside the merged line; the only
consumer of that stored text is the prompt string handed to the opaque
execution capability, which the simulation abstracts anyway.  A pending
line at the end of the input is emitted as it stands, matching the regex at
end of string (`#` alone: no `\s+`, no match, a body line; `#` plus
whitespace: a heading with empty title). -/
def mergeLines : Option Str → List Str → List Str
  | none, [] => []
  | some acc, [] => [acc]
  | none, l :: ls =>
    if danglingStart l then mergeLines (some l) ls
    else l :: mergeLines none ls
  | some acc, l :: ls =>
    if l.all Char.isWhitespace then mergeLines (some (acc ++ ' ' :: l)) ls
    else (acc ++ ' ' :: l) :: mergeLines none ls

/-- `MarkdownProcessor.parse_sections`.  A sentinel line `# __END__` is
appended so the last section needs no special case, the regex matches are
located (`mergeLines` realising the cross-line matches, `headInfo` the
per-line ones), the stripped text before the first match (if nonempty)
becomes the `_intro_` preamble section, the stripped slice between
consecutive matches becomes each section's content, the final match is
excluded (`range(len(header_positions) - 1)`), and finally every section
whose title contains `__END__` is deleted. -/
def parse_sections (markdown_content : Str) : List (SecId × Sec) :=
  let withEnd := markdown_content ++ '\n' :: endLine
  let p := splitDoc (mergeLines none (splitLines withEnd))
  let introContent := trim (joinLines p.1)
  let introPart : List (SecId × Sec) :=
    if introContent ≠ [] then [(SecId.intro, ⟨0, [], introContent, [], none⟩)]
    else []
  let body : List (SecId × Sec) := p.2.dropLast.enum.map fun ie =>
    let info := (headInfo ie.2.1).getD (0, [])
    (SecId.sec ie.1, ⟨info.1, info.2, trim (joinLines ie.2.2), ie.2.1, some ie.1⟩)
  (introPart ++ body).filter fun e => ¬ (hasSubstr endSentinel e.2.title)

/-- Sort key used by `reassemble` and `enhance_content`:
`x[1].get('original_position', 999)`. -/
def posKey (e : SecId × Sec) : Nat := e.2.original_position.getD 999

/-- The sort relation `key=lambda x: x[1].get('original_position', 999)`. -/
def posLe (a b : SecId × Sec) : Prop := posKey a ≤ posKey b

instance : DecidableRel posLe := fun a b => Nat.decLe (posKey a) (posKey b)

instance : IsTotal (SecId × Sec) posLe := ⟨fun a b => Nat.le_total (posKey a) (posKey b)⟩

instance : IsTrans (SecId × Sec) posLe := ⟨fun _ _ _ => Nat.le_trans⟩

/-- Strict comparison on sort keys. -/
def posLt (a b : SecId × Sec) : Prop := posKey a < posKey b

instance : IsAntisymm (SecId × Sec) posLt :=
  ⟨fun _ _ h h' => absurd (Nat.lt_trans h h') (Nat.lt_irrefl _)⟩

/-- Strict comparison of section metadata by stored position (default 999). -/
def metaLt (x y : SecId × Nat × Str × Option Nat) : Prop :=
  x.2.2.2.getD 999 < y.2.2.2.getD 999

instance : IsAntisymm (SecId × Nat × Str × Option Nat) metaLt :=
  ⟨fun _ _ h h' => absurd (Nat.lt_trans h h') (Nat.lt_irrefl _)⟩

/-- The heading line `'#' * level + ' ' + title` rebuilt by `reassemble`. -/
def headerLineOf (s : Sec) : Str := List.replicate s.level '#' ++ ' ' :: s.title

/-- The preamble's blocks: its content (when nonempty — its header `''` is
never emitted) followed by the empty separator block. -/
def introP (sections : List (SecId × Sec)) : List Str :=
  match sections.lookup SecId.intro with
  | some s => (if s.content ≠ [] then [s.content] else []) ++ [[]]
  | none => []

/-- The non-preamble sections sorted by `original_position` (default 999),
Python's stable `sort` modelled by the stable `List.insertionSort`. -/
def sortedNonIntro (sections : List (SecId × Sec)) : List (SecId × Sec) :=
  List.insertionSort posLe (sections.filter fun e => e.1 ≠ SecId.intro)

/-- One section's emitted blocks: the rebuilt heading (always nonempty for a
rebuilt header, the test mirrors `if section['header']`), the content when
nonempty, and the empty separator block. -/
def blockOf (e : SecId × Sec) : List Str :=
  (if headerLineOf e.2 ≠ [] then [headerLineOf e.2] else []) ++
    (if e.2.content ≠ [] then [e.2.content] else []) ++ [[]]

/-- The list of blocks `reassemble` joins with `'\n'`: the preamble blocks
first, then the blocks of each remaining section in sorted order. -/
def reassembleParts (sections : List (SecId × Sec)) : List Str :=
  introP sections ++ ((sortedNonIntro sections).map blockOf).flatten

/-- `MarkdownProcessor.reassemble`: join the blocks with `'\n'` and strip. -/
def reassemble (sections : List (SecId × Sec)) : Str :=
  trim (joinLines (reassembleParts sections))

/-- The optional literal `markdown` tag after an opening fence,
from the group `(?:markdown)?` of the extraction regex. -/
def stripMarkdownTag (s : Str) : Str :=
  if "markdown".data.isPrefixOf s then s.drop 8 else s

/-- A raw fence body becomes the regex capture: the `markdown` tag is
consumed, then `\s*` on each side strips surrounding whitespace. -/
def mkCapture (acc : Str) : Str := trim (stripMarkdownTag acc)

/-- A triple backtick, the fence delimiter of the extraction regex. -/
def fence : Str := ['`', '`', '`']

/-- Left-to-right scanner for `re.findall(r'```(?:markdown)?\s*([\s\S]*?)\s*```', s)`:
outside a block (`st = none`) a triple backtick opens a block, inside a
block (`st = some acc`) the first triple backtick closes it and emits the
capture; an unterminated block emits nothing. -/
def code_blocks : Str → Option Str → List Str
  | [], _ => []
  | '`' :: '`' :: '`' :: rest, none => code_blocks rest (some [])
  | '`' :: '`' :: '`' :: rest, some acc => mkCapture acc :: code_blocks rest none
  | _ :: rest, none => code_blocks rest none
  | c :: rest, some acc => code_blocks rest (some (acc ++ [c]))

/-- Python `max(code_blocks, key=len)` starting from a first candidate:
scan left to right, replacing the candidate only on a strictly greater
length, so the first block of maximal length wins. -/
def maxByLen (acc : Str) : List Str → Str
  | [] => acc
  | b :: bs => maxByLen (if acc.length < b.length then b else acc) bs

/-- `MarkdownProcessor.extract_final_content`: if the text contains fenced
code blocks, take the longest one, otherwise the whole text; strip the
result. -/
def extract_final_content (result_text : Str) : Str :=
  match code_blocks result_text none with
  | [] => trim result_text
  | b :: bs => trim (maxByLen b bs)

/-- Simulated outcome of one run of the external execution capability:
whether `crew.kickoff()` returns text or raises, the `output` attribute of
each linking task (in task order), and whether the guard's internal `try`
block raises.  Exceptions of the opaque capability are modelled as `none` /
a boolean oracle, since the shallow embedding is total. -/
structure SimOutcome where
  kickoff : Option Str
  linkOutputs : List (Option Str)
  guardRaises : Bool

/-- The `output` of the i-th linking task (`none`: no output produced). -/
def outAt (sim : SimOutcome) (i : Nat) : Option Str := sim.linkOutputs.getD i none

/-- The per-section task chain of `src/lib/enhancer.py`: sections sorted by
`original_position`, skipping those whose stripped content is empty. -/
def chainOf (sections : List (SecId × Sec)) : List (SecId × Sec) :=
  (List.insertionSort posLe sections).filter fun e => trim e.2.content ≠ []

/-- The per-section task chain of `lib/enhancer.py`: as `chainOf`, but only
the first 5 sections by `original_position` get task slots
(`section_items = section_items[:5]`). -/
def chainOfV1 (sections : List (SecId × Sec)) : List (SecId × Sec) :=
  ((List.insertionSort posLe sections).take 5).filter fun e => trim e.2.content ≠ []

/-- The task-derived part of the recovery map of the `except` branch: for
every linking task that produced a truthy output, the original section with
its content overwritten by the extracted task output when that extract is
nonempty and longer than 10 characters. -/
def recoverTasks (chain : List (SecId × Sec)) (sim : SimOutcome) : List (SecId × Sec) :=
  chain.enum.filterMap fun ie =>
    match outAt sim ie.1 with
    | some t =>
      if t ≠ [] then
        some (ie.2.1,
          { ie.2.2 with content :=
              if extract_final_content t ≠ [] ∧ 10 < (extract_final_content t).length then
                extract_final_content t
              else ie.2.2.content })
      else none
    | none => none

/-- The recovery map built in the `except` branch of `enhance_content`: for
every linking task that produced a truthy output, copy the original section
and overwrite its content with the extracted task output when that extract
is nonempty and longer than 10 characters; then add every original section
not covered by a task. -/
def recoverSections (chain : List (SecId × Sec)) (sim : SimOutcome)
    (sections : List (SecId × Sec)) : List (SecId × Sec) :=
  let fromTasks := chain.enum.filterMap fun ie =>
    match outAt sim ie.1 with
    | some t =>
      if t ≠ [] then
        let tc := extract_final_content t
        some (ie.2.1,
          { ie.2.2 with content := if tc ≠ [] ∧ 10 < tc.length then tc else ie.2.2.content })
      else none
    | none => none
  fromTasks ++ sections.filter fun e => ¬ fromTasks.any fun f => f.1 = e.1

/-- The manual reassembly map built on the success path when the final text
looks invalid: every linking task with an `output` attribute overwrites its
section's content with the extracted output, unconditionally; missing
sections fall back to the originals. -/
def manualSections (chain : List (SecId × Sec)) (sim : SimOutcome)
    (sections : List (SecId × Sec)) : List (SecId × Sec) :=
  let fromTasks := chain.enum.filterMap fun ie =>
    (outAt sim ie.1).map fun t => (ie.2.1, { ie.2.2 with content := extract_final_content t })
  fromTasks ++ sections.filter fun e => ¬ fromTasks.any fun f => f.1 = e.1

/-- The stripped content of the original section with a given id:
`sections.get(sec_id, {}).get("content", "").strip()`. -/
def origContent (sections : List (SecId × Sec)) (sid : SecId) : Str :=
  trim (((sections.lookup sid).map Sec.content).getD [])

/-- The placeholder test of the guard, applied to a stripped content:
`content.startswith("<!--") or len(content) < 20`. -/
def placeholderFlag (c : Str) : Bool :=
  "<!--".data.isPrefixOf c || decide (c.length < 20)

/-- One step of the guard's repair loop: a flagged section whose original
content is nonempty gets that (stripped) original content back. -/
def repairSec (sections : List (SecId × Sec)) (e : SecId × Sec) : SecId × Sec :=
  if placeholderFlag (trim e.2.content) ∧ origContent sections e.1 ≠ [] then
    (e.1, { e.2 with content := origContent sections e.1 })
  else e

/-- The guard's section map after the repair loop ran over the re-parsed
improved document. -/
def repairedMap (improved : Str) (sections : List (SecId × Sec)) : List (SecId × Sec) :=
  (parse_sections improved).map (repairSec sections)

/-- The guard's `updated` flag: did any replacement occur? -/
def anyRepaired (improved : Str) (sections : List (SecId × Sec)) : Bool :=
  (parse_sections improved).any fun e =>
    placeholderFlag (trim e.2.content) && decide (origContent sections e.1 ≠ [])

/-- The degenerate-output guard (`validateAndRepair`): re-parse the improved
document, restore original content to placeholder sections, and reassemble
only when some replacement occurred. -/
def validateAndRepair (improved : Str) (sections : List (SecId × Sec)) : Str :=
  if anyRepaired improved sections then reassemble (repairedMap improved sections)
  else improved

/-- The guard step as wrapped in `try ... except: pass` inside
`enhance_content`: when the internal block raises (modelled by the boolean
oracle), the improved document is kept untouched. -/
def placeholderRepairStep (raises : Bool) (improved : Str)
    (sections : List (SecId × Sec)) : Str :=
  if raises then improved else validateAndRepair improved sections

/-- `ContentEnhancer.enhance_content` of `src/lib/enhancer.py`, parameterised
by the simulated capability outcome.  On success: extract the final content,
run the placeholder-repair guard, fall back to manual reassembly when the
text is empty or shorter than 50 characters, and strip.  On an exception:
rebuild from whatever task outputs completed, accept the recovery only when
nonempty and longer than half the original, otherwise return the original
document unchanged. -/
def enhance_content (sim : SimOutcome) (markdown_content : Str) : Str :=
  let sections := parse_sections markdown_content
  let chain := chainOf sections
  match sim.kickoff with
  | some result_text =>
    let improved0 := extract_final_content result_text
    let improved1 := placeholderRepairStep sim.guardRaises improved0 sections
    if improved1 = [] ∨ improved1.length < 50 then
      trim (reassemble (manualSections chain sim sections))
    else trim improved1
  | none =>
    let recovered := reassemble (recoverSections chain sim sections)
    if recovered ≠ [] ∧ markdown_content.length < 2 * recovered.length then
      trim recovered
    else markdown_content

/-- `ContentEnhancer.enhance_content` of `lib/enhancer.py`: same pipeline
without the placeholder-repair guard, and with the task chain capped at 5
sections. -/
def enhance_content_v1 (sim : SimOutcome) (markdown_content : Str) : Str :=
  let sections := parse_sections markdown_content
  let chain := chainOfV1 sections
  match sim.kickoff with
  | some result_text =>
    let improved0 := extract_final_content result_text
    if improved0 = [] ∨ improved0.length < 50 then
      trim (reassemble (manualSections chain sim sections))
    else trim improved0
  | none =>
    let recovered := reassemble (recoverSections chain sim sections)
    if recovered ≠ [] ∧ markdown_content.length < 2 * recovered.length then
      trim recovered
    else markdown_content

/-- The ordered list of (level, title) heading pairs of a document, read off
line by line with the same heading matcher as `parse_sections`. -/
def headingPairs (s : Str) : List (Nat × Str) :=
  (splitLines s).filterMap headInfo

/-- Whitespace-only strings. -/
def allWs (s : Str) : Prop := ∀ c ∈ s, c.isWhitespace

instance (s : Str) : Decidable (allWs s) := List.decidableBAll _ s

/-- How the line lists of `a` and `b` glue when `a ++ b` is split into
lines: the last line of `a` fuses with the first line of `b`. -/
def glueLines (xs ys : List Str) : List Str :=
  xs.dropLast ++ (xs.getLastD [] ++ ys.headD []) :: ys.tail

/-- A line is well formed when it is either a heading line with a nonempty
title that does not contain the `__END__` sentinel, or a body line that
neither turns into a heading line after the strip that `parse_sections`
applies to section contents nor strips to a bare run of `#` marks (which
would start a cross-line regex match). -/
def wellFormedLine (l : Str) : Bool :=
  match headInfo l with
  | some kt => decide (kt.2 ≠ []) && ! hasSubstr endSentinel kt.2
  | none => decide (headInfo (ltrim l) = none) && ! danglingStart (trim l)

/-- A document consisting only of well-formed heading lines and bodies. -/
def wellFormed (d : Str) : Bool := (splitLines d).all wellFormedLine

/-- A heading pair whose title is nonempty and free of the sentinel text. -/
def okHeading (p : Nat × Str) : Bool := decide (p.2 ≠ []) && ! hasSubstr endSentinel p.2

/-- All headings of a document are nondegenerate — nonempty titles, no
`__END__` — and no line of the document strips to a bare run of `#` marks
(such a line would start a cross-line regex match, in the document itself or
in a reassembled document holding a stripped slice of it). -/
def headingsOk (d : Str) : Bool :=
  ((splitLines d).all fun l => ! danglingStart (trim l)) && (headingPairs d).all okHeading

/-- The identity and structural data of a section, everything except the
content and the stored heading line. -/
def secMeta (e : SecId × Sec) : SecId × Nat × Str × Option Nat :=
  (e.1, e.2.level, e.2.title, e.2.original_position)

/-- The preamble lines of a document as scanned by `parse_sections` (with
the sentinel line appended and the cross-line matches merged). -/
def parsePre (d : Str) : List Str :=
  (splitDoc (mergeLines none (splitLines d ++ [endLine]))).1

/-- The (heading line, body lines) groups of a document as scanned by
`parse_sections` (cross-line matches merged), with the final group — the
final regex match, normally the sentinel — dropped. -/
def parseGroups (d : Str) : List (Str × List Str) :=
  (splitDoc (mergeLines none (splitLines d ++ [endLine]))).2.dropLast

/-- The (level, title) pairs of the regex matches `parse_sections` locates
in the sentineled document, the final match excluded: the heading pairs of
the document exactly as the code's scan sees them. -/
def headingPairsM (d : Str) : List (Nat × Str) :=
  (parseGroups d).map fun g => (headInfo g.1).getD (0, [])

/-- No line of the document starts a cross-line regex match: on such
documents the per-line matcher reads off exactly the code's matches. -/
def noDangling (d : Str) : Bool := (splitLines d).all fun l => ! danglingStart l

/-- The section built from the i-th (heading line, body lines) group. -/
def groupSec (ie : Nat × (Str × List Str)) : SecId × Sec :=
  (SecId.sec ie.1,
    ⟨((headInfo ie.2.1).getD (0, [])).1, ((headInfo ie.2.1).getD (0, [])).2,
      trim (joinLines ie.2.2), ie.2.1, some ie.1⟩)

/-- The preamble section list of a document: one `_intro_` entry when the
stripped preamble text is nonempty. -/
def introSecs (d : Str) : List (SecId × Sec) :=
  if trim (joinLines (parsePre d)) ≠ [] then
    [(SecId.intro, ⟨0, [], trim (joinLines (parsePre d)), [], none⟩)]
  else []

/-- The regular (non-preamble) sections of a document, before the `__END__`
deletion filter. -/
def bodySecs (d : Str) : List (SecId × Sec) := (parseGroups d).enum.map groupSec

/-- The lines one reassembled section contributes to the output document:
its rebuilt heading line, its content's lines when nonempty, and the blank
separator line. -/
def secLines (e : SecId × Sec) : List Str :=
  headerLineOf e.2 :: ((if e.2.content ≠ [] then splitLines e.2.content else []) ++ [[]])

/-- The lines the preamble contributes to the reassembled document. -/
def introLinesOf (m : List (SecId × Sec)) : List Str :=
  match m.lookup SecId.intro with
  | some s => (if s.content ≠ [] then splitLines s.content else []) ++ [[]]
  | none => []

/-- The identity and semantic payload of a section: everything except the
stored heading line (`full_header`), which `reassemble` rebuilds from level
and title. -/
def secCore (e : SecId × Sec) : SecId × Nat × Str × Str × Option Nat :=
  (e.1, e.2.level, e.2.title, e.2.content, e.2.original_position)

/-- The lines a section's content contributes to the reassembled document. -/
def cLines (e : SecId × Sec) : List Str :=
  if e.2.content ≠ [] then splitLines e.2.content else []

/-- The heading pair and stripped body text read off one (heading line,
body lines) group. -/
def groupKey (g : Str × List Str) : (Nat × Str) × Str :=
  ((headInfo g.1).getD (0, []), trim (joinLines g.2))

/-- The heading pair and content of a section record. -/
def secKey (e : SecId × Sec) : (Nat × Str) × Str :=
  ((e.2.level, e.2.title), e.2.content)

/-! ### Whitespace and strip lemmas -/

theorem dropWhile_append_of_all {p : Char → Bool} {w s : Str} (h : ∀ c ∈ w, p c) :
    (w ++ s).dropWhile p = s.dropWhile p := by
  induction w with
  | nil => rfl
  | cons c w ih =>
    simp only [List.cons_append, List.dropWhile_cons, h c (by simp)]
    exact ih fun c hc => h c (by simp [hc])

theorem ltrim_append_ws {w s : Str} (h : allWs w) : ltrim (w ++ s) = ltrim s :=
  dropWhile_append_of_all h

theorem rtrim_append_ws {w s : Str} (h : allWs w) : rtrim (s ++ w) = rtrim s := by
  unfold rtrim
  rw [List.reverse_append, dropWhile_append_of_all]
  intro c hc
  exact h c (by simpa using hc)

theorem ltrim_cons_not_ws {c : Char} {s : Str} (h : ¬ c.isWhitespace) :
    ltrim (c :: s) = c :: s := by
  simp [ltrim, List.dropWhile_cons, h]

theorem rtrim_append_not_ws {c : Char} {s : Str} (h : ¬ c.isWhitespace) :
    rtrim (s ++ [c]) = s ++ [c] := by
  unfold rtrim
  simp [List.dropWhile_cons, h]

theorem ltrim_head_not_ws {s : Str} {c : Char} {l : Str} (h : ltrim s = c :: l) :
    ¬ c.isWhitespace := by
  induction s with
  | nil => simp [ltrim] at h
  | cons a s ih =>
    by_cases ha : a.isWhitespace
    · exact ih (by simpa [ltrim, List.dropWhile_cons, ha] using h)
    · simp [ltrim, List.dropWhile_cons, ha] at h
      rcases h with ⟨h1, _⟩
      subst h1
      exact ha

theorem ltrim_decomp (s : Str) : ∃ w, allWs w ∧ s = w ++ ltrim s := by
  induction s with
  | nil => exact ⟨[], by simp [allWs], rfl⟩
  | cons a s ih =>
    by_cases ha : a.isWhitespace
    · obtain ⟨w, hw, hs⟩ := ih
      refine ⟨a :: w, ?_, ?_⟩
      · intro c hc
        rcases List.mem_cons.mp hc with rfl | hc
        · exact ha
        · exact hw c hc
      · simp [ltrim, List.dropWhile_cons, ha]
        exact hs
    · exact ⟨[], by simp [allWs], by simp [ltrim_cons_not_ws ha]⟩

theorem allWs_nil : allWs [] := by intro c hc; cases hc

theorem ltrim_eq_nil_of_allWs {s : Str} (h : allWs s) : ltrim s = [] := by
  have := ltrim_append_ws (s := []) h
  simpa using this

theorem allWs_of_ltrim_eq_nil {s : Str} (h : ltrim s = []) : allWs s := by
  obtain ⟨w, hw, hs⟩ := ltrim_decomp s
  rw [h, List.append_nil] at hs
  rwa [hs]

theorem rtrim_eq_nil_of_allWs {s : Str} (h : allWs s) : rtrim s = [] := by
  have hr : allWs s.reverse := fun c hc => h c (by simpa using hc)
  have h0 : ltrim s.reverse = [] := ltrim_eq_nil_of_allWs hr
  unfold ltrim at h0
  unfold rtrim
  rw [h0]
  rfl

theorem rtrim_decomp (s : Str) : ∃ w, allWs w ∧ s = rtrim s ++ w := by
  obtain ⟨w, hw, hs⟩ := ltrim_decomp s.reverse
  refine ⟨w.reverse, fun c hc => hw c (by simpa using hc), ?_⟩
  have : s.reverse.reverse = (w ++ ltrim s.reverse).reverse := by rw [← hs]
  simpa [rtrim] using this

theorem rtrim_last_not_ws {s : Str} {c : Char} {l : Str} (h : rtrim s = l ++ [c]) :
    ¬ c.isWhitespace := by
  have h' : ltrim s.reverse = c :: l.reverse := by
    have := congrArg List.reverse h
    simpa [rtrim] using this
  exact ltrim_head_not_ws h'

theorem ltrim_idem (s : Str) : ltrim (ltrim s) = ltrim s := by
  cases h : ltrim s with
  | nil => simp [ltrim]
  | cons c l => exact ltrim_cons_not_ws (ltrim_head_not_ws h)

theorem rtrim_idem (s : Str) : rtrim (rtrim s) = rtrim s := by
  cases h : rtrim s using List.reverseRecOn with
  | nil => simp [rtrim]
  | append_singleton l c => rw [rtrim_append_not_ws (rtrim_last_not_ws h)]

theorem rtrim_ne_nil_of_head {c : Char} {l : Str} (hc : ¬ c.isWhitespace) :
    rtrim (c :: l) ≠ [] := by
  intro h0
  obtain ⟨v, hv, hrv⟩ := rtrim_decomp (c :: l)
  rw [h0, List.nil_append] at hrv
  exact hc (hv c (by rw [← hrv]; simp))

theorem rtrim_cons_not_ws {c : Char} {l : Str} (hc : ¬ c.isWhitespace) :
    ∃ m, rtrim (c :: l) = c :: m := by
  obtain ⟨v, hv, hrv⟩ := rtrim_decomp (c :: l)
  cases hr : rtrim (c :: l) with
  | nil => exact absurd hr (rtrim_ne_nil_of_head hc)
  | cons d m =>
    refine ⟨m, ?_⟩
    rw [hr] at hrv
    have : c = d := by simpa using congrArg (fun t => t.headD ' ') hrv
    rw [← this]

theorem rtrim_append_left {u : Str} {c : Char} {l : Str} (hc : ¬ c.isWhitespace) :
    rtrim (u ++ c :: l) = u ++ rtrim (c :: l) := by
  obtain ⟨v, hv, hrv⟩ := rtrim_decomp (c :: l)
  have hne : rtrim (c :: l) ≠ [] := rtrim_ne_nil_of_head hc
  obtain ⟨R, d, hR⟩ := List.eq_nil_or_concat (rtrim (c :: l)) |>.resolve_left hne
  rw [List.concat_eq_append] at hR
  have hd : ¬ d.isWhitespace := rtrim_last_not_ws hR
  conv_lhs => rw [hrv, ← List.append_assoc, rtrim_append_ws hv]
  rw [hR, ← List.append_assoc]
  exact rtrim_append_not_ws hd

theorem ltrim_rtrim_comm (s : Str) : ltrim (rtrim s) = rtrim (ltrim s) := by
  obtain ⟨u, hu, hs⟩ := ltrim_decomp s
  cases hl : ltrim s with
  | nil =>
    have hws : allWs s := allWs_of_ltrim_eq_nil hl
    rw [rtrim_eq_nil_of_allWs hws]
    rfl
  | cons c l =>
    have hc : ¬ c.isWhitespace := ltrim_head_not_ws hl
    conv_lhs => rw [hs, hl]
    rw [rtrim_append_left hc, ltrim_append_ws hu]
    obtain ⟨m, hm⟩ := rtrim_cons_not_ws hc
    rw [hm]
    exact ltrim_cons_not_ws hc

theorem trim_idem (s : Str) : trim (trim s) = trim s := by
  unfold trim
  rw [ltrim_rtrim_comm (ltrim s), ltrim_idem, rtrim_idem]

theorem trim_append_ws {w s : Str} (h : allWs w) : trim (s ++ w) = trim s := by
  unfold trim
  obtain ⟨u, hu, hs⟩ := ltrim_decomp s
  cases hl : ltrim s with
  | nil =>
    have hsw : allWs (s ++ w) := by
      intro c hc
      rcases List.mem_append.mp hc with hc | hc
      · have hws : allWs s := allWs_of_ltrim_eq_nil hl
        exact hws c hc
      · exact h c hc
    rw [ltrim_eq_nil_of_allWs hsw]
  | cons c l =>
    have h2 : ltrim (s ++ w) = (c :: l) ++ w := by
      conv_lhs => rw [hs, List.append_assoc, ltrim_append_ws hu]
      rw [hl]
      exact ltrim_cons_not_ws (ltrim_head_not_ws hl)
    rw [h2, rtrim_append_ws h]

theorem trim_ws_append {w s : Str} (h : allWs w) : trim (w ++ s) = trim s := by
  unfold trim
  rw [ltrim_append_ws h]

theorem trim_append_nl (s : Str) : trim (s ++ ['\n']) = trim s :=
  trim_append_ws (by intro c hc; simp at hc; simp [hc])

theorem trim_eq_self {s : Str} (h : trim s = s) : ltrim s = s ∧ rtrim s = s := by
  constructor
  · conv_rhs => rw [← h]
    conv_lhs => rw [← h]
    unfold trim
    rw [ltrim_rtrim_comm, ltrim_idem]
  · conv_rhs => rw [← h]
    conv_lhs => rw [← h]
    unfold trim
    rw [rtrim_idem]

theorem trim_decomp (s : Str) : ∃ u v, allWs u ∧ allWs v ∧ s = u ++ trim s ++ v := by
  obtain ⟨u, hu, hs⟩ := ltrim_decomp s
  obtain ⟨v, hv, hr⟩ := rtrim_decomp (ltrim s)
  refine ⟨u, v, hu, hv, ?_⟩
  rw [List.append_assoc]
  unfold trim
  rw [← hr, ← hs]

/-! ### Line splitting and joining -/

theorem splitLines_ne_nil (s : Str) : splitLines s ≠ [] := by
  induction s with
  | nil => simp [splitLines]
  | cons c cs ih =>
    simp only [splitLines]
    split
    · simp
    · cases h : splitLines cs with
      | nil => exact absurd h ih
      | cons l ls => simp

theorem joinLines_splitLines (s : Str) : joinLines (splitLines s) = s := by
  induction s with
  | nil => rfl
  | cons c cs ih =>
    simp only [splitLines]
    split
    · rename_i hc
      cases h : splitLines cs with
      | nil => exact absurd h (splitLines_ne_nil cs)
      | cons l ls =>
        rw [h] at ih
        simp only [joinLines, ← hc, List.nil_append]
        rw [ih]
    · cases h : splitLines cs with
      | nil => exact absurd h (splitLines_ne_nil cs)
      | cons l ls =>
        rw [h] at ih
        cases ls with
        | nil => simpa [joinLines] using ih
        | cons l' ls' =>
          simp only [joinLines] at ih ⊢
          rw [List.cons_append, ih]

theorem getLastD_ne_nil {l : List Str} (h : l ≠ []) (d d' : Str) :
    l.getLastD d = l.getLastD d' := by
  induction l with
  | nil => exact absurd rfl h
  | cons x xs ih =>
    cases xs with
    | nil => rfl
    | cons y ys => simpa using ih (by simp)

theorem dropLast_append_getLastD {l : List Str} (h : l ≠ []) (r : List Str) (d : Str) :
    l.dropLast ++ l.getLastD d :: r = l ++ r := by
  induction l with
  | nil => exact absurd rfl h
  | cons x xs ih =>
    cases xs with
    | nil => rfl
    | cons y ys => simpa using ih (by simp)

theorem splitLines_append (a b : Str) :
    splitLines (a ++ b) = glueLines (splitLines a) (splitLines b) := by
  induction a with
  | nil =>
    cases h : splitLines b with
    | nil => exact absurd h (splitLines_ne_nil b)
    | cons l ls => simp [glueLines, splitLines, h]
  | cons c a ih =>
    cases h : splitLines a with
    | nil => exact absurd h (splitLines_ne_nil a)
    | cons x xs =>
      rw [h] at ih
      cases hb : splitLines b with
      | nil => exact absurd hb (splitLines_ne_nil b)
      | cons z zs =>
        rw [hb] at ih
        by_cases hc : c = '\n'
        · subst hc
          simp only [List.cons_append, splitLines, if_pos rfl, ih, h, hb]
          cases xs with
          | nil => simp [glueLines, ih]
          | cons y ys => simp [glueLines, ih]
        · simp only [List.cons_append, splitLines, if_neg hc, ih, h, hb]
          cases xs with
          | nil => simp [glueLines, ih]
          | cons y ys => simp [glueLines, ih, getLastD_ne_nil (List.cons_ne_nil y ys) x []]

theorem splitLines_append_nl (a b : Str) :
    splitLines (a ++ '\n' :: b) = splitLines a ++ splitLines b := by
  have h : splitLines ('\n' :: b) = [] :: splitLines b := by
    simp [splitLines]
  rw [splitLines_append, h]
  unfold glueLines
  simp only [List.headD_cons, List.tail_cons, List.append_nil]
  exact dropLast_append_getLastD (splitLines_ne_nil a) _ _

theorem splitLines_joinLines_eq_join {q : List Str} (hq : q ≠ []) :
    splitLines (joinLines q) = (q.map splitLines).flatten := by
  induction q with
  | nil => exact absurd rfl hq
  | cons x q ih =>
    cases q with
    | nil => simp [joinLines]
    | cons y q' =>
      simp only [joinLines, List.map_cons, List.flatten_cons]
      rw [splitLines_append_nl, ih (by simp)]
      simp

theorem no_nl_mem_splitLines {s : Str} : ∀ l ∈ splitLines s, '\n' ∉ l := by
  induction s with
  | nil => intro l hl; simp [splitLines] at hl; simp [hl]
  | cons c cs ih =>
    intro l hl
    simp only [splitLines] at hl
    by_cases hc : c = '\n'
    · rw [if_pos hc] at hl
      rcases List.mem_cons.mp hl with rfl | hl
      · simp
      · exact ih l hl
    · rw [if_neg hc] at hl
      cases h : splitLines cs with
      | nil => exact absurd h (splitLines_ne_nil cs)
      | cons x xs =>
        rw [h] at hl
        rcases List.mem_cons.mp hl with rfl | hl
        · intro hmem
          rcases List.mem_cons.mp hmem with rfl | hmem
          · exact hc rfl
          · exact ih x (by simp [h]) hmem
        · exact ih l (by simp [h, hl])

theorem splitLines_of_no_nl {s : Str} (h : '\n' ∉ s) : splitLines s = [s] := by
  induction s with
  | nil => rfl
  | cons c cs ih =>
    have hc : ¬ c = '\n' := by
      intro hc
      exact h (by simp [hc])
    simp only [splitLines, if_neg hc]
    rw [ih (fun hm => h (by simp [hm]))]

/-! ### The header scan -/

theorem splitDoc_parts (ls : List Str) :
    ls = (splitDoc ls).1 ++ ((splitDoc ls).2.map fun g => g.1 :: g.2).flatten ∧
      (∀ l ∈ (splitDoc ls).1, headInfo l = none) ∧
      (∀ g ∈ (splitDoc ls).2, (headInfo g.1).isSome ∧ ∀ l ∈ g.2, headInfo l = none) := by
  induction ls with
  | nil =>
    refine ⟨rfl, ?_, ?_⟩
    · intro l hl
      simp [splitDoc] at hl
    · intro g hg
      simp [splitDoc] at hg
  | cons l rest ih =>
    obtain ⟨ihe, ihpre, ihgs⟩ := ih
    cases h : headInfo l with
    | some k =>
      refine ⟨?_, by simp [splitDoc, h], ?_⟩
      · simp only [splitDoc, h]
        simpa using ihe
      · intro g hg
        simp only [splitDoc, h] at hg
        rcases List.mem_cons.mp hg with rfl | hg
        · exact ⟨by simp [h], ihpre⟩
        · exact ihgs g hg
    | none =>
      refine ⟨?_, ?_, ?_⟩
      · simp only [splitDoc, h]
        simpa using ihe
      · intro x hx
        simp only [splitDoc, h] at hx
        rcases List.mem_cons.mp hx with rfl | hx
        · exact h
        · exact ihpre x hx
      · intro g hg
        simp only [splitDoc, h] at hg
        exact ihgs g hg

theorem splitDoc_spec (gs : List (Str × List Str))
    (hgs : ∀ g ∈ gs, (headInfo g.1).isSome ∧ ∀ l ∈ g.2, headInfo l = none) :
    ∀ pre, (∀ l ∈ pre, headInfo l = none) →
      splitDoc (pre ++ (gs.map fun g => g.1 :: g.2).flatten) = (pre, gs) := by
  induction gs with
  | nil =>
    intro pre hpre
    induction pre with
    | nil => rfl
    | cons l pre ih =>
      have h2 := ih fun x hx => hpre x (by simp [hx])
      simp only [List.cons_append, splitDoc, hpre l (by simp), List.append_eq] at h2 ⊢
      rw [h2]
  | cons g gs ihg =>
    have hgs' : ∀ g' ∈ gs, (headInfo g'.1).isSome ∧ ∀ l ∈ g'.2, headInfo l = none :=
      fun g' hg' => hgs g' (by simp [hg'])
    intro pre hpre
    induction pre with
    | nil =>
      obtain ⟨hh, hbody⟩ := hgs g (by simp)
      obtain ⟨k, hk⟩ := Option.isSome_iff_exists.mp hh
      have h2 := ihg hgs' g.2 hbody
      simp only [List.nil_append, List.map_cons, List.flatten_cons, List.cons_append,
        splitDoc, hk, List.append_eq] at h2 ⊢
      rw [h2]
    | cons l pre ih =>
      have h2 := ih fun x hx => hpre x (by simp [hx])
      simp only [List.cons_append, splitDoc, hpre l (by simp), List.append_eq] at h2 ⊢
      rw [h2]

theorem splitDoc_head_pairs (ls : List Str) :
    (splitDoc ls).2.map (fun g => (headInfo g.1).getD (0, [])) = ls.filterMap headInfo := by
  induction ls with
  | nil => rfl
  | cons l rest ih =>
    cases h : headInfo l with
    | some k => simp [splitDoc, h, ih]
    | none => simp [splitDoc, h, ih]

theorem headInfo_endLine : headInfo endLine = some (1, endSentinel) := by decide

theorem splitLines_withEnd (d : Str) :
    splitLines (d ++ '\n' :: endLine) = splitLines d ++ [endLine] := by
  rw [splitLines_append_nl, splitLines_of_no_nl (s := endLine) (by decide)]

theorem parse_sections_eq (d : Str) :
    parse_sections d =
      (introSecs d ++ (parseGroups d).enum.map groupSec).filter
        fun e => ¬ hasSubstr endSentinel e.2.title := by
  unfold parse_sections introSecs parsePre parseGroups groupSec
  simp only [splitLines_withEnd]

theorem parse_sections_eq' (d : Str) :
    parse_sections d =
      (introSecs d ++ bodySecs d).filter fun e => ¬ hasSubstr endSentinel e.2.title :=
  parse_sections_eq d

theorem map_enum_snd {α β : Type _} (f : α → β) (l : List α) :
    l.enum.map (fun ie => f ie.2) = l.map f := by
  rw [show (fun (ie : Nat × α) => f ie.2) = f ∘ Prod.snd from rfl, ← List.map_map,
    List.enum_map_snd]

theorem filterMap_endLine :
    List.filterMap headInfo [endLine] = [(1, endSentinel)] := by decide

theorem mergeLines_none_nil : mergeLines none [] = [] := rfl

theorem mergeLines_some_nil (acc : Str) : mergeLines (some acc) [] = [acc] := rfl

theorem mergeLines_none_cons (l : Str) (ls : List Str) :
    mergeLines none (l :: ls) =
      if danglingStart l then mergeLines (some l) ls else l :: mergeLines none ls := rfl

theorem mergeLines_some_cons (acc l : Str) (ls : List Str) :
    mergeLines (some acc) (l :: ls) =
      if l.all Char.isWhitespace then mergeLines (some (acc ++ ' ' :: l)) ls
      else (acc ++ ' ' :: l) :: mergeLines none ls := rfl

theorem mergeLines_id : ∀ L : List Str, (∀ l ∈ L, danglingStart l = false) →
    mergeLines none L = L := by
  intro L
  induction L with
  | nil => intro _; rfl
  | cons l ls ih =>
    intro h
    have hl := h l (by simp)
    rw [mergeLines_none_cons, if_neg (by simp [hl]), ih fun x hx => h x (by simp [hx])]

theorem endLine_not_dangling : danglingStart endLine = false := by decide

theorem mergeId_of_noDangling {d : Str} (h : noDangling d = true) :
    mergeLines none (splitLines d ++ [endLine]) = splitLines d ++ [endLine] := by
  apply mergeLines_id
  intro l hl
  rcases List.mem_append.mp hl with hm | hm
  · have h2 := List.all_eq_true.mp h l hm
    simpa using h2
  · rcases List.mem_singleton.mp hm with rfl
    decide

theorem dropWhile_eq_self_of_all_not {p : Char → Bool} {l : Str}
    (h : ∀ c ∈ l, p c = false) : l.dropWhile p = l := by
  cases l with
  | nil => rfl
  | cons c t =>
    rw [List.dropWhile_cons, h c (List.mem_cons_self c t)]
    simp

theorem takeWhile_eq_self_of_all {p : Char → Bool} : ∀ {l : Str},
    (∀ c ∈ l, p c = true) → l.takeWhile p = l := by
  intro l
  induction l with
  | nil => intro _; rfl
  | cons c t ih =>
    intro h
    rw [List.takeWhile_cons, h c (List.mem_cons_self c t)]
    simp only [if_true]
    rw [ih fun x hx => h x (List.mem_cons_of_mem c hx)]

theorem dropWhile_eq_nil_of_all {p : Char → Bool} : ∀ {l : Str},
    (∀ c ∈ l, p c = true) → l.dropWhile p = [] := by
  intro l
  induction l with
  | nil => intro _; rfl
  | cons c t ih =>
    intro h
    rw [List.dropWhile_cons, h c (List.mem_cons_self c t)]
    simp only [if_true]
    exact ih fun x hx => h x (List.mem_cons_of_mem c hx)

theorem trim_eq_self_of_no_ws {s : Str} (h : ∀ c ∈ s, c.isWhitespace = false) :
    trim s = s := by
  unfold trim ltrim rtrim
  rw [dropWhile_eq_self_of_all_not h,
    dropWhile_eq_self_of_all_not fun c hc => h c (List.mem_reverse.mp hc),
    List.reverse_reverse]

theorem danglingStart_trim {l : Str} (h : danglingStart l = true) :
    danglingStart (trim l) = true := by
  unfold danglingStart at h
  rw [Bool.and_eq_true, decide_eq_true_eq] at h
  obtain ⟨hne, hws⟩ := h
  have hsplit : l.takeWhile (fun c => decide (c = '#')) ++
      l.dropWhile (fun c => decide (c = '#')) = l :=
    List.takeWhile_append_dropWhile (fun c => decide (c = '#')) l
  have hhash : ∀ c ∈ l.takeWhile (fun c => decide (c = '#')), c = '#' := by
    intro c hc
    have h2 := List.mem_takeWhile_imp hc
    exact of_decide_eq_true h2
  have hallws : allWs (l.dropWhile (fun c => decide (c = '#'))) := fun c hc =>
    List.all_eq_true.mp hws c hc
  have htl : trim l = l.takeWhile (fun c => decide (c = '#')) := by
    conv_lhs => rw [← hsplit]
    rw [trim_append_ws hallws]
    exact trim_eq_self_of_no_ws fun c hc => by
      rw [hhash c hc]
      decide
  unfold danglingStart
  rw [htl, takeWhile_eq_self_of_all fun c hc => decide_eq_true (hhash c hc),
    dropWhile_eq_nil_of_all fun c hc => decide_eq_true (hhash c hc)]
  simp [hne]

theorem noDangling_iff {s : Str} :
    noDangling s = true ↔ ∀ l ∈ splitLines s, danglingStart l = false := by
  unfold noDangling
  rw [List.all_eq_true]
  constructor
  · intro h l hl
    have h2 := h l hl
    simpa using h2
  · intro h l hl
    simp [h l hl]

theorem noDangling_of_trimClean {d : Str}
    (h : ∀ l ∈ splitLines d, danglingStart (trim l) = false) : noDangling d = true := by
  rw [noDangling_iff]
  intro l hl
  cases hdl : danglingStart l with
  | false => rfl
  | true =>
    have h2 := danglingStart_trim hdl
    rw [h l hl] at h2
    cases h2

theorem mergeLines_no_nl : ∀ (L : List Str) (st : Option Str),
    (∀ l ∈ L, '\n' ∉ l) → (∀ a, st = some a → '\n' ∉ a) →
    ∀ l' ∈ mergeLines st L, '\n' ∉ l' := by
  intro L
  induction L with
  | nil =>
    intro st h hst l' hl'
    cases st with
    | none => cases hl'
    | some a =>
      rw [mergeLines_some_nil] at hl'
      rcases List.mem_singleton.mp hl' with rfl
      exact hst l' rfl
  | cons l ls ih =>
    intro st h hst l' hl'
    have hln : '\n' ∉ l := h l (by simp)
    have htail : ∀ x ∈ ls, '\n' ∉ x := fun x hx => h x (by simp [hx])
    cases st with
    | none =>
      rw [mergeLines_none_cons] at hl'
      split at hl'
      · refine ih (some l) htail (fun a ha => ?_) l' hl'
        rw [show a = l from (Option.some_inj.mp ha).symm]
        exact hln
      · rcases List.mem_cons.mp hl' with rfl | hm
        · exact hln
        · exact ih none htail (fun a ha => by cases ha) l' hm
    | some acc =>
      have hacc : '\n' ∉ acc := hst acc rfl
      have hmerged : '\n' ∉ acc ++ ' ' :: l := by
        intro hmem
        rcases List.mem_append.mp hmem with hm | hm
        · exact hacc hm
        · rcases List.mem_cons.mp hm with h2 | h2
          · exact absurd h2 (by decide)
          · exact hln h2
      rw [mergeLines_some_cons] at hl'
      split at hl'
      · refine ih (some (acc ++ ' ' :: l)) htail (fun a ha => ?_) l' hl'
        rw [show a = acc ++ ' ' :: l from (Option.some_inj.mp ha).symm]
        exact hmerged
      · rcases List.mem_cons.mp hl' with rfl | hm
        · exact hmerged
        · exact ih none htail (fun a ha => by cases ha) l' hm

theorem merged_no_nl (d : Str) :
    ∀ l' ∈ mergeLines none (splitLines d ++ [endLine]), '\n' ∉ l' := by
  apply mergeLines_no_nl
  · intro l hl
    rcases List.mem_append.mp hl with hm | hm
    · exact no_nl_mem_splitLines l hm
    · rcases List.mem_singleton.mp hm with rfl
      decide
  · intro a ha
    cases ha

theorem headingPairsM_eq (d : Str)
    (hid : mergeLines none (splitLines d ++ [endLine]) = splitLines d ++ [endLine]) :
    headingPairsM d = headingPairs d := by
  unfold headingPairsM parseGroups headingPairs
  rw [hid, List.map_dropLast, splitDoc_head_pairs, List.filterMap_append, filterMap_endLine,
    List.dropLast_concat]

theorem bodySecs_pairs (d : Str) :
    (bodySecs d).map (fun e => (e.2.level, e.2.title)) = headingPairsM d := by
  unfold bodySecs headingPairsM
  rw [List.map_map]
  have h1 : ((fun (e : SecId × Sec) => (e.2.level, e.2.title)) ∘ groupSec) =
      (fun (ie : Nat × (Str × List Str)) => (headInfo ie.2.1).getD (0, [])) := by
    funext ie
    simp [groupSec]
  rw [h1, map_enum_snd (fun g => (headInfo g.1).getD (0, [])) (parseGroups d)]

theorem headingPairs_nil_parse (d : Str)
    (hid : mergeLines none (splitLines d ++ [endLine]) = splitLines d ++ [endLine])
    (h : headingPairs d = []) :
    parsePre d = splitLines d ∧ parseGroups d = [] ∧ bodySecs d = [] := by
  have hall : ∀ l ∈ splitLines d, headInfo l = none := by
    intro l hl
    exact List.filterMap_eq_nil_iff.mp h l hl
  have hs := splitDoc_spec [(endLine, [])]
    (by
      intro g hg
      rcases List.mem_singleton.mp hg with rfl
      exact ⟨by rw [headInfo_endLine]; rfl, by simp⟩)
    (splitLines d) hall
  simp only [List.map_cons, List.map_nil, List.flatten_cons, List.flatten_nil,
    List.append_nil] at hs
  refine ⟨?_, ?_, ?_⟩
  · unfold parsePre
    rw [hid]
    rw [show ((endLine :: ([] : List Str)) : List Str) = [endLine] from rfl] at hs
    rw [hs]
  · unfold parseGroups
    rw [hid, hs]
    rfl
  · unfold bodySecs parseGroups
    rw [hid, hs]
    rfl

/-! ### Generic helpers for the reassembly analysis -/

theorem lookup_mem {α β : Type _} [BEq α] [LawfulBEq α] {l : List (α × β)} {k : α} {v : β}
    (h : l.lookup k = some v) : (k, v) ∈ l := by
  induction l with
  | nil => simp [List.lookup] at h
  | cons p l ih =>
    obtain ⟨a, b⟩ := p
    rw [List.lookup] at h
    rcases hbe : (k == a) with _ | _
    · rw [hbe] at h
      exact List.mem_cons_of_mem _ (ih h)
    · rw [hbe] at h
      simp only [Option.some.injEq] at h
      have : k = a := by simpa using hbe
      rw [this, h]
      exact List.mem_cons_self _ _

theorem joinLines_concat {Q : List Str} (x : Str) (h : Q ≠ []) :
    joinLines (Q ++ [x]) = joinLines Q ++ '\n' :: x := by
  induction Q with
  | nil => exact absurd rfl h
  | cons q Q ih =>
    cases Q with
    | nil => rfl
    | cons q' Q' =>
      have h2 := ih (by simp)
      simp only [List.cons_append, joinLines, List.append_eq] at h2 ⊢
      rw [h2]
      simp

theorem joinLines_head {c : Char} {q : Str} (rest : List Str) :
    ∃ r, joinLines ((c :: q) :: rest) = c :: r := by
  cases rest with
  | nil => exact ⟨q, rfl⟩
  | cons y rest' => exact ⟨q ++ '\n' :: joinLines (y :: rest'), rfl⟩

theorem joinLines_ends {Q : List Str} (h : Q ≠ []) {u : Str} {d : Char}
    (hl : Q.getLast h = u ++ [d]) : ∃ r, joinLines Q = r ++ [d] := by
  induction Q with
  | nil => exact absurd rfl h
  | cons q Q ih =>
    cases Q with
    | nil =>
      refine ⟨u, ?_⟩
      simpa [joinLines] using hl
    | cons y Q' =>
      have hl' : (y :: Q').getLast (by simp) = u ++ [d] := by
        rw [← hl]
        exact (List.getLast_cons (by simp)).symm
      obtain ⟨r, hr⟩ := ih (by simp) hl'
      refine ⟨q ++ '\n' :: r, ?_⟩
      simp only [joinLines, hr]
      simp

theorem length_rtrim_le (s : Str) : (rtrim s).length ≤ s.length := by
  obtain ⟨w, _, hs⟩ := rtrim_decomp s
  conv_rhs => rw [hs]
  simp

theorem last_not_ws_of_trim_eq {t : Str} (h : trim t = t) {u : Str} {d : Char}
    (ht : t = u ++ [d]) : ¬ d.isWhitespace := by
  intro hd
  have hr : rtrim t = t := (trim_eq_self h).2
  rw [ht, rtrim_append_ws (by intro c hc; simp at hc; simp [hc, hd])] at hr
  have := length_rtrim_le u
  have h2 := congrArg List.length hr
  simp at h2
  omega

theorem head_not_ws_of_trim_eq {t : Str} (h : trim t = t) {r : Str} {c : Char}
    (ht : t = c :: r) : ¬ c.isWhitespace := by
  have hr : ltrim t = t := (trim_eq_self h).1
  rw [ht] at hr
  exact ltrim_head_not_ws hr

theorem trim_eq_self_ends {s : Str} {c d : Char} {r u : Str}
    (h1 : s = c :: r) (hc : ¬ c.isWhitespace)
    (h2 : s = u ++ [d]) (hd : ¬ d.isWhitespace) : trim s = s := by
  unfold trim
  rw [h1, ltrim_cons_not_ws hc, ← h1, h2, rtrim_append_not_ws hd]

theorem mem_of_mem_trim {s : Str} {c : Char} (h : c ∈ trim s) : c ∈ s := by
  obtain ⟨u, v, _, _, hs⟩ := trim_decomp s
  rw [hs]
  simp [h]

theorem enumFrom_pairwise_fst {α : Type _} :
    ∀ (n : Nat) (l : List α), List.Pairwise (fun a b => a.1 < b.1) (List.enumFrom n l) := by
  intro n l
  induction l generalizing n with
  | nil => simp
  | cons x xs ih =>
    simp only [List.enumFrom]
    refine List.Pairwise.cons ?_ (ih (n + 1))
    intro y hy
    have := (List.mem_enumFrom hy).1
    simpa using this

theorem enum_pairwise_fst {α : Type _} (l : List α) :
    List.Pairwise (fun a b => a.1 < b.1) l.enum := by
  rw [List.enum_eq_enumFrom]
  exact enumFrom_pairwise_fst 0 l

theorem filterMap_key_sublist {α β γ : Type _} (F : α → Option (β × γ)) (key : α → β)
    (hF : ∀ x e, F x = some e → e.1 = key x) :
    ∀ l : List α, ((l.filterMap F).map Prod.fst).Sublist (l.map key) := by
  intro l
  induction l with
  | nil => simp
  | cons x l ih =>
    cases hFx : F x with
    | none =>
      rw [List.filterMap_cons_none hFx, List.map_cons]
      exact ih.trans (List.sublist_cons_self _ _)
    | some e =>
      rw [List.filterMap_cons_some hFx, List.map_cons, List.map_cons, hF x e hFx]
      exact ih.cons₂ _

theorem key_inj {l : List (SecId × Sec)} (h : (l.map Prod.fst).Nodup)
    {a b : SecId × Sec} (ha : a ∈ l) (hb : b ∈ l) (hk : a.1 = b.1) : a = b := by
  induction l with
  | nil => cases ha
  | cons x l ih =>
    rw [List.map_cons, List.nodup_cons] at h
    by_cases hax : a = x <;> by_cases hbx : b = x
    · rw [hax, hbx]
    · exfalso
      have hb' : b ∈ l := by
        rcases List.mem_cons.mp hb with h1 | h1
        · exact absurd h1 hbx
        · exact h1
      apply h.1
      have hmem : b.1 ∈ l.map Prod.fst := List.mem_map_of_mem Prod.fst hb'
      rwa [← hk, hax] at hmem
    · exfalso
      have ha' : a ∈ l := by
        rcases List.mem_cons.mp ha with h1 | h1
        · exact absurd h1 hax
        · exact h1
      apply h.1
      have hmem : a.1 ∈ l.map Prod.fst := List.mem_map_of_mem Prod.fst ha'
      rwa [hk, hbx] at hmem
    · have ha' : a ∈ l := by
        rcases List.mem_cons.mp ha with h1 | h1
        · exact absurd h1 hax
        · exact h1
      have hb' : b ∈ l := by
        rcases List.mem_cons.mp hb with h1 | h1
        · exact absurd h1 hbx
        · exact h1
      exact ih h.2 ha' hb'

theorem sublist_flatten_of_head {α β : Type _} (g : α → β) (F : α → List β) :
    ∀ (l : List α), (∀ x ∈ l, ∃ j, F x = g x :: j) →
      (l.map g).Sublist ((l.map F).flatten) := by
  intro l
  induction l with
  | nil => simp
  | cons x l ih =>
    intro h
    obtain ⟨j, hj⟩ := h x (by simp)
    rw [List.map_cons, List.map_cons, List.flatten_cons, hj]
    refine List.Sublist.cons₂ _ ?_
    exact (ih fun y hy => h y (by simp [hy])).trans (List.sublist_append_right j _)

theorem nodup_map_of_pairwise_lt {α : Type _} {f : α → Nat} {l : List α}
    (h : List.Pairwise (fun x y => f x < f y) l) : (l.map f).Nodup := by
  exact List.pairwise_map.mpr (h.imp fun hab => Nat.ne_of_lt hab)

/-! ### Sorting with distinct keys -/

theorem pairwise_posLt_of_sorted {l : List (SecId × Sec)}
    (hs : List.Pairwise posLe l) (hn : (l.map posKey).Nodup) :
    List.Pairwise posLt l := by
  have h2 : List.Pairwise (fun x y => posKey x ≠ posKey y) l := List.pairwise_map.mp hn
  exact (hs.and h2).imp fun hab => Nat.lt_of_le_of_ne hab.1 hab.2

theorem eq_of_perm_of_pairwise_posLt {a b : List (SecId × Sec)}
    (hp : a.Perm b) (ha : List.Pairwise posLt a) (hb : List.Pairwise posLt b) : a = b :=
  List.eq_of_perm_of_sorted hp ha hb

theorem sortedNonIntro_of_meta_perm {m' b : List (SecId × Sec)}
    (hperm : ((m'.filter fun e => e.1 ≠ SecId.intro).map secMeta).Perm (b.map secMeta))
    (hb : List.Pairwise posLt b) :
    (sortedNonIntro m').map secMeta = b.map secMeta := by
  have hqual : ∀ l : List (SecId × Sec), l.map posKey = (l.map secMeta).map
      (fun t => t.2.2.2.getD 999) := by
    intro l
    rw [List.map_map]
    rfl
  have hperm2 : (sortedNonIntro m').Perm (m'.filter fun e => e.1 ≠ SecId.intro) :=
    List.perm_insertionSort posLe _
  have hmeta_perm : ((sortedNonIntro m').map secMeta).Perm (b.map secMeta) :=
    (hperm2.map secMeta).trans hperm
  have hkeys_b : (b.map posKey).Nodup := nodup_map_of_pairwise_lt hb
  have hkeys_s : ((sortedNonIntro m').map posKey).Nodup := by
    rw [hqual]
    refine ((hmeta_perm.map (fun t => t.2.2.2.getD 999)).symm).nodup ?_
    rw [← hqual]
    exact hkeys_b
  have hs_lt : List.Pairwise posLt (sortedNonIntro m') :=
    pairwise_posLt_of_sorted (List.sorted_insertionSort posLe _) hkeys_s
  have hsort_lt : List.Sorted metaLt ((sortedNonIntro m').map secMeta) := by
    rw [List.Sorted, List.pairwise_map]
    exact hs_lt
  have hb_lt : List.Sorted metaLt (b.map secMeta) := by
    rw [List.Sorted, List.pairwise_map]
    exact hb
  exact List.eq_of_perm_of_sorted (r := metaLt) hmeta_perm hsort_lt hb_lt

/-! ### Line structure of the reassembled document -/

theorem replicate_hash_append_takeWhile (k : Nat) (t : Str) :
    (List.replicate k '#' ++ ' ' :: t).takeWhile (fun x => decide (x = '#')) =
      List.replicate k '#' := by
  induction k with
  | zero => simp [List.takeWhile_cons]
  | succ n ih => simp [List.replicate_succ, List.takeWhile_cons, ih]

theorem headInfo_headerLine {k : Nat} {t : Str} (hk : 1 ≤ k) (ht : trim t = t) :
    headInfo (List.replicate k '#' ++ ' ' :: t) = some (k, t) := by
  have h1 := replicate_hash_append_takeWhile k t
  have h2 : (List.replicate k '#' ++ ' ' :: t).drop k = ' ' :: t := by
    rw [List.drop_append_of_le_length (by simp)]
    simp
  simp only [headInfo, h1, List.length_replicate, h2]
  rw [if_pos ⟨hk, by decide⟩]
  have h3 : trim (' ' :: t) = t := by
    have h4 := trim_ws_append (w := [' ']) (s := t) (by intro c hc; simp at hc; simp [hc])
    simp only [List.singleton_append] at h4
    rw [h4, ht]
  rw [h3]

theorem headerLineOf_eq {s : Sec} : headerLineOf s = List.replicate s.level '#' ++ ' ' :: s.title :=
  rfl

theorem headerLineOf_ne_nil (s : Sec) : headerLineOf s ≠ [] := by
  unfold headerLineOf
  simp

theorem headerLineOf_head {s : Sec} (h : 1 ≤ s.level) : ∃ r, headerLineOf s = '#' :: r := by
  unfold headerLineOf
  obtain ⟨n, hn⟩ : ∃ n, s.level = n + 1 := ⟨s.level - 1, by omega⟩
  rw [hn, List.replicate_succ]
  exact ⟨List.replicate n '#' ++ ' ' :: s.title, rfl⟩

theorem headerLineOf_no_nl {s : Sec} (h : '\n' ∉ s.title) : '\n' ∉ headerLineOf s := by
  unfold headerLineOf
  intro hmem
  rcases List.mem_append.mp hmem with hm | hm
  · have := List.eq_of_mem_replicate hm
    cases this
  · rcases List.mem_cons.mp hm with hc | hc
    · cases hc
    · exact h hc

theorem headerLineOf_ends {s : Sec} {u : Str} {d : Char} (ht : s.title = u ++ [d]) :
    headerLineOf s = (List.replicate s.level '#' ++ ' ' :: u) ++ [d] := by
  unfold headerLineOf
  rw [ht]
  simp

theorem dropWhile_hash_header (k : Nat) (t : Str) :
    (List.replicate k '#' ++ ' ' :: t).dropWhile (fun c => decide (c = '#')) = ' ' :: t := by
  induction k with
  | zero =>
    rw [List.replicate, List.nil_append, List.dropWhile_cons]
    simp
  | succ n ih =>
    rw [List.replicate_succ, List.cons_append, List.dropWhile_cons]
    simp only [decide_True, if_true]
    exact ih

theorem headerLineOf_not_dangling {s : Sec} (ht : trim s.title = s.title)
    (htne : s.title ≠ []) : danglingStart (headerLineOf s) = false := by
  obtain ⟨c, r, hcr⟩ : ∃ c r, s.title = c :: r := by
    cases hc : s.title with
    | nil => exact absurd hc htne
    | cons c r => exact ⟨c, r, rfl⟩
  have hcw : ¬ c.isWhitespace := head_not_ws_of_trim_eq ht hcr
  unfold danglingStart
  rw [headerLineOf_eq, dropWhile_hash_header]
  have hcf : c.isWhitespace = false := by
    cases hq : c.isWhitespace with
    | false => rfl
    | true => exact absurd hq hcw
  have h2 : (' ' :: s.title).all Char.isWhitespace = false := by
    rw [hcr, List.all_cons, List.all_cons, hcf]
    simp
  rw [h2, Bool.and_false]

theorem blockOf_lines {e : SecId × Sec} (hnl : '\n' ∉ headerLineOf e.2) :
    ((blockOf e).map splitLines).flatten = secLines e := by
  unfold blockOf secLines
  rw [if_pos (headerLineOf_ne_nil _)]
  split
  · simp [splitLines_of_no_nl hnl, splitLines]
  · simp [splitLines_of_no_nl hnl, splitLines]

theorem blocks_lines (l : List (SecId × Sec)) (h : ∀ e ∈ l, '\n' ∉ headerLineOf e.2) :
    (((l.map blockOf).flatten).map splitLines).flatten = (l.map secLines).flatten := by
  induction l with
  | nil => rfl
  | cons e l ih =>
    simp only [List.map_cons, List.flatten_cons, List.map_append, List.flatten_append]
    rw [blockOf_lines (h e (by simp)), ih fun x hx => h x (by simp [hx])]

theorem introP_lines (m : List (SecId × Sec)) :
    ((introP m).map splitLines).flatten = introLinesOf m := by
  unfold introP introLinesOf
  cases hlook : m.lookup SecId.intro with
  | none => rfl
  | some s =>
    by_cases hc : s.content = [] <;> simp [hc, splitLines]

theorem reassembleParts_lines (m : List (SecId × Sec))
    (h : ∀ e ∈ sortedNonIntro m, '\n' ∉ headerLineOf e.2) :
    ((reassembleParts m).map splitLines).flatten =
      introLinesOf m ++ ((sortedNonIntro m).map secLines).flatten := by
  unfold reassembleParts
  rw [List.map_append, List.flatten_append, introP_lines, blocks_lines _ h]

theorem reassemble_splitLines (m : List (SecId × Sec))
    (hIntro : ∀ s, m.lookup SecId.intro = some s → s.content ≠ [] ∧ trim s.content = s.content)
    (hS : ∀ e ∈ sortedNonIntro m, trim e.2.content = e.2.content ∧ trim e.2.title = e.2.title ∧
      e.2.title ≠ [] ∧ 1 ≤ e.2.level ∧ '\n' ∉ e.2.title)
    (hne : sortedNonIntro m ≠ []) :
    splitLines (reassemble m) ++ [[]] =
      introLinesOf m ++ ((sortedNonIntro m).map secLines).flatten := by
  obtain ⟨init, elast, hsplit⟩ := (List.eq_nil_or_concat (sortedNonIntro m)).resolve_left hne
  rw [List.concat_eq_append] at hsplit
  have helast := hS elast (by rw [hsplit]; simp)
  obtain ⟨hct, htt, htne, hlev, hnl⟩ := helast
  -- the final block, split into its body B and the trailing separator
  have hblock : blockOf elast = ((if elast.2.content ≠ [] then
      [headerLineOf elast.2, elast.2.content] else [headerLineOf elast.2]) : List Str) ++ [[]] := by
    unfold blockOf
    rw [if_pos (headerLineOf_ne_nil _)]
    split <;> simp
  have hP : reassembleParts m =
      (introP m ++ ((init.map blockOf).flatten ++ (if elast.2.content ≠ [] then
        [headerLineOf elast.2, elast.2.content] else [headerLineOf elast.2]))) ++ [[]] := by
    unfold reassembleParts
    rw [hsplit, List.map_append, List.flatten_append]
    simp only [List.map_cons, List.map_nil, List.flatten_cons, List.flatten_nil,
      List.append_nil]
    rw [hblock]
    simp [List.append_assoc]
  set B : List Str := (if elast.2.content ≠ [] then
    [headerLineOf elast.2, elast.2.content] else [headerLineOf elast.2]) with hB
  set Q : List Str := introP m ++ ((init.map blockOf).flatten ++ B) with hQ
  have hQne : Q ≠ [] := by
    rw [hQ, hB]
    split <;> simp
  -- the reassembled text is joinLines Q
  have hjoin : joinLines (reassembleParts m) = joinLines Q ++ ['\n'] := by
    rw [hP]
    exact joinLines_concat [] hQne
  -- head of Q is a nonempty line starting with a non-whitespace character
  have hhead : ∃ c r rest, Q = (c :: r) :: rest ∧ ¬ c.isWhitespace := by
    rw [hQ]
    cases hlook : m.lookup SecId.intro with
    | some s =>
      obtain ⟨hsne, hstrim⟩ := hIntro s hlook
      obtain ⟨c, r, hcr⟩ : ∃ c r, s.content = c :: r := by
        cases hsc : s.content with
        | nil => exact absurd hsc hsne
        | cons c r => exact ⟨c, r, rfl⟩
      refine ⟨c, r, ([] : Str) :: ((init.map blockOf).flatten ++ B), ?_,
        head_not_ws_of_trim_eq hstrim hcr⟩
      unfold introP
      rw [hlook]
      simp [hcr]
    | none =>
      unfold introP
      rw [hlook]
      cases hinit : init with
      | nil =>
        simp only [List.nil_append, List.map_nil, List.flatten_nil]
        rw [hB]
        have h1 := hlev
        obtain ⟨r, hr⟩ := headerLineOf_head h1
        split
        · exact ⟨'#', r, [elast.2.content], by rw [hr], by decide⟩
        · exact ⟨'#', r, [], by rw [hr], by decide⟩
      | cons e0 init' =>
        have he0 := hS e0 (by rw [hsplit, hinit]; simp)
        obtain ⟨r, hr⟩ := headerLineOf_head he0.2.2.2.1
        refine ⟨'#', r,
          ((if e0.2.content ≠ [] then [e0.2.content] else []) ++ [([] : Str)]) ++
            ((init'.map blockOf).flatten ++ B), ?_, by decide⟩
        simp only [List.map_cons, List.flatten_cons, List.nil_append]
        unfold blockOf
        rw [if_pos (headerLineOf_ne_nil _), hr]
        simp
  -- last of Q is a nonempty line ending with a non-whitespace character
  have hlast : ∃ A u d, Q = A ++ [u ++ [d]] ∧ ¬ d.isWhitespace := by
    rw [hQ, hB]
    split
    · rename_i hcne
      obtain ⟨u, d, hud⟩ : ∃ u d, elast.2.content = u ++ [d] := by
        rcases List.eq_nil_or_concat elast.2.content with hn | ⟨u, d, hc⟩
        · exact absurd hn hcne
        · exact ⟨u, d, by rw [hc]; simp⟩
      exact ⟨introP m ++ ((init.map blockOf).flatten ++ [headerLineOf elast.2]), u, d,
        by rw [hud]; simp, last_not_ws_of_trim_eq hct hud⟩
    · obtain ⟨u, d, hud⟩ : ∃ u d, elast.2.title = u ++ [d] := by
        rcases List.eq_nil_or_concat elast.2.title with hn | ⟨u, d, hc⟩
        · exact absurd hn htne
        · exact ⟨u, d, by rw [hc]; simp⟩
      refine ⟨introP m ++ (init.map blockOf).flatten,
        List.replicate elast.2.level '#' ++ ' ' :: u, d, ?_,
        last_not_ws_of_trim_eq htt hud⟩
      rw [headerLineOf_ends hud]
      simp
  -- hence the join is already stripped
  have htrim : trim (joinLines Q) = joinLines Q := by
    obtain ⟨c, r, rest, hQh, hcw⟩ := hhead
    obtain ⟨A, u, d, hQl, hdw⟩ := hlast
    obtain ⟨r2, hr2⟩ := joinLines_head (c := c) (q := r) rest
    have hAne : Q ≠ [] := hQne
    have hglast : Q.getLast hAne = u ++ [d] := by
      have h1 : Q.getLast? = some (u ++ [d]) := by
        rw [hQl, List.getLast?_concat]
      rwa [List.getLast?_eq_getLast _ hAne, Option.some_inj] at h1
    obtain ⟨r3, hr3⟩ := joinLines_ends hAne hglast
    exact trim_eq_self_ends (by rw [hQh]; exact hr2) hcw hr3 hdw
  have hre : reassemble m = joinLines Q := by
    unfold reassemble
    rw [hjoin, trim_append_nl]
    exact htrim
  rw [hre, splitLines_joinLines_eq_join hQne]
  have hlines : ((reassembleParts m).map splitLines).flatten =
      (Q.map splitLines).flatten ++ [[]] := by
    rw [hP, List.map_append, List.flatten_append]
    simp [splitLines]
  rw [← hlines]
  apply reassembleParts_lines
  intro e he
  exact headerLineOf_no_nl (hS e he).2.2.2.2

/-! ### Claim C5 -/

/-- C5, counterexample: `parse_sections` returns an empty mapping for the
whitespace-only (and hence nonempty) input `" "`, so "empty mapping only
when the input is the empty string" fails on the code. -/
theorem c5_counterexample :
    parse_sections (" " : String).data = [] ∧ (" " : String).data ≠ ([] : Str) := by
  constructor
  · decide
  · decide

/-- C5, amended: `parse_sections` is a total function (so it never raises),
and it returns an empty mapping exactly when the text before the first
header match strips to nothing and the title of every match (the sentinel
match excluded) contains `__END__`; in particular input in which the scan
finds no heading besides the sentinel degrades to the single level-0
preamble section holding the stripped pre-text whenever that is
nonempty. -/
theorem parse_sections_empty_characterization (d : Str) :
    (parse_sections d = [] ↔
      trim (joinLines (parsePre d)) = [] ∧
        ∀ p ∈ headingPairsM d, hasSubstr endSentinel p.2 = true) ∧
    (headingPairsM d = [] → trim (joinLines (parsePre d)) ≠ [] →
      parse_sections d =
        [(SecId.intro, ⟨0, [], trim (joinLines (parsePre d)), [], none⟩)]) := by
  constructor
  · rw [parse_sections_eq', List.filter_eq_nil_iff]
    constructor
    · intro h
      constructor
      · by_contra hne
        have hm : (SecId.intro, (⟨0, [], trim (joinLines (parsePre d)), [], none⟩ : Sec)) ∈
            introSecs d ++ bodySecs d := by
          apply List.mem_append_left
          rw [introSecs, if_pos hne]
          exact List.mem_singleton.mpr rfl
        exact absurd
          (show (decide ¬ hasSubstr endSentinel ([] : Str) = true) = true by decide)
          (h _ hm)
      · intro p hp
        rw [← bodySecs_pairs] at hp
        obtain ⟨e, he, hpe⟩ := List.mem_map.mp hp
        have h2 := h e (List.mem_append_right _ he)
        rw [← hpe]
        simpa using h2
    · rintro ⟨h1, h2⟩ e he
      rcases List.mem_append.mp he with he | he
      · rw [introSecs, if_neg (by simpa using h1)] at he
        cases he
      · have hmem : (e.2.level, e.2.title) ∈ headingPairsM d := by
          rw [← bodySecs_pairs]
          exact List.mem_map_of_mem _ he
        have h3 := h2 _ hmem
        simp only [h3]
        simp
  · intro h hne
    have hbody : bodySecs d = [] := by
      have h0 := bodySecs_pairs d
      rw [h] at h0
      exact List.map_eq_nil_iff.mp h0
    rw [parse_sections_eq', hbody, List.append_nil, introSecs, if_pos hne]
    simp [hasSubstr, endSentinel]

theorem parse_entry_no_end {d : Str} {e : SecId × Sec} (he : e ∈ parse_sections d) :
    hasSubstr endSentinel e.2.title = false := by
  rw [parse_sections_eq'] at he
  have h2 := (List.mem_filter.mp he).2
  simpa using h2

theorem headInfo_facts {l : Str} {k : Nat} {t : Str} (h : headInfo l = some (k, t)) :
    1 ≤ k ∧ trim t = t ∧ ∀ c ∈ t, c ∈ l := by
  simp only [headInfo] at h
  split at h
  · cases h
  · split at h
    · rename_i heq c rest2 hcond
      rw [Option.some.injEq, Prod.mk.injEq] at h
      refine ⟨h.1 ▸ hcond.1, h.2 ▸ trim_idem _, ?_⟩
      intro ch hch
      rw [← h.2] at hch
      exact List.mem_of_mem_drop (mem_of_mem_trim hch)
    · cases h

theorem parseGroups_isSome {d : Str} {g : Str × List Str} (hg : g ∈ parseGroups d) :
    (headInfo g.1).isSome ∧ ∀ l ∈ g.2, headInfo l = none := by
  unfold parseGroups at hg
  have hg2 : g ∈ (splitDoc (mergeLines none (splitLines d ++ [endLine]))).2 :=
    (List.dropLast_sublist _).mem hg
  exact (splitDoc_parts (mergeLines none (splitLines d ++ [endLine]))).2.2 g hg2

theorem no_nl_title {d : Str} {g : Str × List Str} (hg : g ∈ parseGroups d) :
    '\n' ∉ g.1 := by
  unfold parseGroups at hg
  have hg2 : g ∈ (splitDoc (mergeLines none (splitLines d ++ [endLine]))).2 :=
    (List.dropLast_sublist _).mem hg
  have hmem : g.1 ∈ mergeLines none (splitLines d ++ [endLine]) := by
    have hparts := (splitDoc_parts (mergeLines none (splitLines d ++ [endLine]))).1
    rw [hparts]
    apply List.mem_append_right
    rw [List.mem_flatten]
    exact ⟨g.1 :: g.2, List.mem_map_of_mem _ hg2, by simp⟩
  exact merged_no_nl d g.1 hmem

theorem parse_entry_facts {d : Str} {e : SecId × Sec} (he : e ∈ parse_sections d) :
    trim e.2.content = e.2.content ∧
    trim e.2.title = e.2.title ∧
    '\n' ∉ e.2.title ∧
    (e.1 = SecId.intro → e.2.level = 0 ∧ e.2.title = [] ∧ e.2.content ≠ [] ∧
      e.2.original_position = none) ∧
    (e.1 ≠ SecId.intro → 1 ≤ e.2.level ∧
      ∃ i, e.1 = SecId.sec i ∧ e.2.original_position = some i ∧
        (e.2.level, e.2.title) ∈ headingPairsM d) := by
  rw [parse_sections_eq'] at he
  have hmem := (List.mem_filter.mp he).1
  rcases List.mem_append.mp hmem with hm | hm
  · unfold introSecs at hm
    split at hm
    · rename_i hcond
      rcases List.mem_singleton.mp hm with rfl
      exact ⟨trim_idem _, rfl, by simp, fun _ => ⟨rfl, rfl, hcond, rfl⟩,
        fun hni => absurd rfl hni⟩
    · cases hm
  · unfold bodySecs at hm
    obtain ⟨ie, hie, rfl⟩ := List.mem_map.mp hm
    obtain ⟨hsome, _⟩ := parseGroups_isSome (d := d) ((List.enum_map_snd (parseGroups d)) ▸
      List.mem_map_of_mem Prod.snd hie)
    obtain ⟨⟨k, t⟩, hkt⟩ := Option.isSome_iff_exists.mp hsome
    obtain ⟨hk, ht, hsub⟩ := headInfo_facts hkt
    have hnl : '\n' ∉ ie.2.1 := no_nl_title ((List.enum_map_snd (parseGroups d)) ▸
      List.mem_map_of_mem Prod.snd hie)
    have hpair : ((headInfo ie.2.1).getD (0, [])) ∈ headingPairsM d := by
      unfold headingPairsM
      exact List.mem_map_of_mem _ ((List.enum_map_snd (parseGroups d)) ▸
        List.mem_map_of_mem Prod.snd hie)
    refine ⟨trim_idem _, ?_, ?_, ?_, ?_⟩
    · simp only [groupSec, hkt, Option.getD_some]
      exact ht
    · simp only [groupSec, hkt, Option.getD_some]
      intro hmem2
      exact hnl (hsub _ hmem2)
    · intro hi
      cases hi
    · intro _
      refine ⟨?_, ie.1, rfl, rfl, ?_⟩
      · simp only [groupSec, hkt, Option.getD_some]
        exact hk
      · simpa [groupSec] using hpair

theorem parse_no_delete {d : Str}
    (h : ∀ p ∈ headingPairsM d, hasSubstr endSentinel p.2 = false) :
    parse_sections d = introSecs d ++ bodySecs d := by
  rw [parse_sections_eq']
  apply List.filter_eq_self.mpr
  intro e he
  rcases List.mem_append.mp he with hm | hm
  · unfold introSecs at hm
    split at hm
    · rcases List.mem_singleton.mp hm with rfl
      exact (by decide : (decide ¬ hasSubstr endSentinel ([] : Str) = true) = true)
    · cases hm
  · have hpair : (e.2.level, e.2.title) ∈ headingPairsM d := by
      rw [← bodySecs_pairs]
      exact List.mem_map_of_mem _ hm
    have h2 := h _ hpair
    simp only [h2]
    simp

theorem parse_keys_nodup (d : Str) : ((parse_sections d).map Prod.fst).Nodup := by
  have hsub : ((parse_sections d).map Prod.fst).Sublist
      ((introSecs d ++ bodySecs d).map Prod.fst) := by
    rw [parse_sections_eq']
    exact (List.filter_sublist _).map Prod.fst
  refine hsub.nodup ?_
  rw [List.map_append]
  apply List.Nodup.append
  · unfold introSecs
    split <;> simp
  · unfold bodySecs
    rw [List.map_map]
    have h2 : List.Pairwise (fun a b => a ≠ b)
        ((parseGroups d).enum.map (Prod.fst ∘ groupSec)) := by
      rw [List.pairwise_map]
      refine (enum_pairwise_fst (parseGroups d)).imp ?_
      intro a b hab
      simp only [Function.comp, groupSec]
      intro hcon
      rw [SecId.sec.injEq] at hcon
      omega
    exact h2
  · intro k hk1 hk2
    unfold introSecs at hk1
    split at hk1 <;> simp at hk1
    unfold bodySecs at hk2
    rw [List.map_map] at hk2
    obtain ⟨ie, _, hie⟩ := List.mem_map.mp hk2
    rw [hk1] at hie
    simp [Function.comp, groupSec] at hie

theorem enum_pairwise_fst' (d : Str) : List.Pairwise posLt (bodySecs d) := by
  unfold bodySecs
  rw [List.pairwise_map]
  refine (enum_pairwise_fst (parseGroups d)).imp ?_
  intro a b hab
  simpa [posLt, posKey, groupSec] using hab

/-! ### Claim C9 -/

/-- C9: `parse_sections` silently deletes every section whose heading text
contains `__END__` (heading and body), so no returned section carries such a
title; on the concrete document `"# A\nbody\n# B __END__ C\nsecret\n# D\ntail"`
the `B __END__ C` section and its body `secret` are gone from the mapping,
and `reassemble` of the parse result does not contain that heading. -/
theorem parse_sections_deletes_end_sections :
    (∀ (d : Str) (e : SecId × Sec), e ∈ parse_sections d →
        hasSubstr endSentinel e.2.title = false) ∧
    parse_sections ("# A\nbody\n# B __END__ C\nsecret\n# D\ntail" : String).data =
      [(SecId.sec 0, ⟨1, ("A" : String).data, ("body" : String).data,
          ("# A" : String).data, some 0⟩),
        (SecId.sec 2, ⟨1, ("D" : String).data, ("tail" : String).data,
          ("# D" : String).data, some 2⟩)] ∧
    reassemble (parse_sections ("# A\nbody\n# B __END__ C\nsecret\n# D\ntail" : String).data) =
      ("# A\nbody\n\n# D\ntail" : String).data := by
  refine ⟨?_, by decide, by decide⟩
  intro d e he
  rw [parse_sections_eq'] at he
  have h2 := (List.mem_filter.mp he).2
  simpa using h2

/-- C5 witness: the amended characterization evaluated on the heading-less
document `"hello world"`. -/
theorem parse_sections_empty_characterization_witness :
    headingPairsM ("hello world" : String).data = [] ∧
      trim (joinLines (parsePre ("hello world" : String).data)) ≠ [] ∧
      parse_sections ("hello world" : String).data =
        [(SecId.intro,
          ⟨0, [], trim (joinLines (parsePre ("hello world" : String).data)), [], none⟩)] :=
  ⟨by decide, by decide,
    (parse_sections_empty_characterization ("hello world" : String).data).2
      (by decide) (by decide)⟩

/-- C9 witness: the deletion invariant evaluated on a concrete parsed
section. -/
theorem parse_sections_deletes_end_sections_witness :
    hasSubstr endSentinel
      ((SecId.sec 0,
        (⟨1, ("A" : String).data, ("body" : String).data, ("# A" : String).data,
          some 0⟩ : Sec))).2.title = false :=
  parse_sections_deletes_end_sections.1 ("# A\nbody" : String).data _ (by decide)

/-! ### Claims C1 and C2: the recovery path of enhance_content -/

theorem reassemble_trim (m : List (SecId × Sec)) : trim (reassemble m) = reassemble m := by
  unfold reassemble
  rw [trim_idem]

theorem outAt_none {sim : SimOutcome} (h : ∀ o ∈ sim.linkOutputs, o = none) (i : Nat) :
    outAt sim i = none := by
  unfold outAt
  cases hg : sim.linkOutputs[i]? with
  | none => simp [List.getD, hg]
  | some o =>
    have hm : sim.linkOutputs.get? i = some o := by
      rw [List.get?_eq_getElem?, hg]
    have := h o (List.get?_mem hm)
    simp [List.getD, hg, this]

theorem outAt_mem {sim : SimOutcome} {i : Nat} {t : Str} (h : outAt sim i = some t) :
    some t ∈ sim.linkOutputs := by
  unfold outAt at h
  cases hg : sim.linkOutputs[i]? with
  | none =>
    rw [List.getD, List.get?_eq_getElem?, hg] at h
    cases h
  | some o =>
    rw [List.getD, List.get?_eq_getElem?, hg] at h
    rw [Option.getD_some] at h
    rw [← h]
    exact List.get?_mem (by rw [List.get?_eq_getElem?, hg])

theorem recoverSections_no_outputs {sim : SimOutcome} (chain m : List (SecId × Sec))
    (h : ∀ o ∈ sim.linkOutputs, o = none) :
    recoverSections chain sim m = m := by
  unfold recoverSections
  have hft : (chain.enum.filterMap fun ie =>
      match outAt sim ie.1 with
      | some t =>
        if t ≠ [] then
          let tc := extract_final_content t
          some (ie.2.1,
            { ie.2.2 with content := if tc ≠ [] ∧ 10 < tc.length then tc else ie.2.2.content })
        else none
      | none => none) = [] := by
    apply List.filterMap_eq_nil_iff.mpr
    intro ie _
    rw [outAt_none h]
  rw [hft]
  simp

set_option maxRecDepth 8000 in
/-- C1, counterexample: a successful pipeline run returning a plausible-looking
but short final text is returned as-is, even though it is shorter than half
of the original document, and differs from it — the half-length safety net
exists only on the exception path. -/
theorem c1_counterexample :
    enhance_content
        ⟨some ("This output is a short degenerate summary of the document!" : String).data,
          [], false⟩
        ("# Doc\n\nLorem ipsum dolor sit amet, consectetur adipiscing elit, sed do eiusmod tempor incididunt ut labore et dolore magna aliqua ut enim." : String).data =
      ("This output is a short degenerate summary of the document!" : String).data ∧
    2 * ("This output is a short degenerate summary of the document!" : String).data.length <
      ("# Doc\n\nLorem ipsum dolor sit amet, consectetur adipiscing elit, sed do eiusmod tempor incididunt ut labore et dolore magna aliqua ut enim." : String).data.length ∧
    enhance_content
        ⟨some ("This output is a short degenerate summary of the document!" : String).data,
          [], false⟩
        ("# Doc\n\nLorem ipsum dolor sit amet, consectetur adipiscing elit, sed do eiusmod tempor incididunt ut labore et dolore magna aliqua ut enim." : String).data ≠
      ("# Doc\n\nLorem ipsum dolor sit amet, consectetur adipiscing elit, sed do eiusmod tempor incididunt ut labore et dolore magna aliqua ut enim." : String).data := by
  refine ⟨by decide, by decide, by decide⟩

/-- C1, amended: on the exception path (the execution capability raises),
the result of `enhance_content` is never shorter than half of the input, and
whenever the recovered candidate is shorter than half of the input the
original document itself is returned. -/
theorem enhance_content_fail_non_shrinking (sim : SimOutcome) (d : Str)
    (h : sim.kickoff = none) :
    d.length ≤ 2 * (enhance_content sim d).length ∧
      (2 * (reassemble (recoverSections (chainOf (parse_sections d)) sim
          (parse_sections d))).length < d.length →
        enhance_content sim d = d) := by
  simp only [enhance_content, h]
  split
  · rename_i hcond
    rw [reassemble_trim]
    exact ⟨Nat.le_of_lt hcond.2, fun h2 => absurd hcond.2 (by omega)⟩
  · exact ⟨by omega, fun _ => rfl⟩

/-- C1 witness: the amended non-shrinking bound evaluated on a concrete
failing run. -/
theorem enhance_content_fail_non_shrinking_witness :
    ("# T\nhello" : String).data.length ≤
      2 * (enhance_content ⟨none, [], false⟩ ("# T\nhello" : String).data).length :=
  (enhance_content_fail_non_shrinking ⟨none, [], false⟩ ("# T\nhello" : String).data rfl).1

/-- C2, counterexample: with the capability raising on every call (no kickoff
result, no task outputs), `enhance_content` of `"# T\n\n\nhello"` returns the
re-normalized document `"# T\nhello"`, not the input itself. -/
theorem c2_counterexample :
    (∀ o ∈ (SimOutcome.mk none [] false).linkOutputs, o = none) ∧
    enhance_content ⟨none, [], false⟩ ("# T\n\n\nhello" : String).data =
      ("# T\nhello" : String).data ∧
    enhance_content ⟨none, [], false⟩ ("# T\n\n\nhello" : String).data ≠
      ("# T\n\n\nhello" : String).data := by
  refine ⟨by simp, by decide, by decide⟩

/-- C2, amended: if the execution capability raises on every call, then
`enhance_content d` returns the round-trip normalization
`reassemble (parse_sections d)` whenever that is nonempty and longer than
half of `d`, and exactly `d` otherwise; in particular it equals `d` exactly
when `d` is already in round-trip normal form. -/
theorem enhance_content_total_failure (sim : SimOutcome) (d : Str)
    (h : sim.kickoff = none) (h2 : ∀ o ∈ sim.linkOutputs, o = none) :
    enhance_content sim d =
      if reassemble (parse_sections d) ≠ [] ∧
          d.length < 2 * (reassemble (parse_sections d)).length then
        reassemble (parse_sections d)
      else d := by
  simp only [enhance_content, h, recoverSections_no_outputs _ _ h2]
  split
  · exact reassemble_trim _
  · rfl

/-- C2 witness: the amended total-failure law evaluated on a concrete
document. -/
theorem enhance_content_total_failure_witness :
    enhance_content ⟨none, [], false⟩ ("# X\n\nbody text" : String).data =
      if reassemble (parse_sections ("# X\n\nbody text" : String).data) ≠ [] ∧
          ("# X\n\nbody text" : String).data.length <
            2 * (reassemble (parse_sections ("# X\n\nbody text" : String).data)).length then
        reassemble (parse_sections ("# X\n\nbody text" : String).data)
      else ("# X\n\nbody text" : String).data :=
  enhance_content_total_failure ⟨none, [], false⟩ _ rfl (by simp)

/-! ### Structure of the recovery map -/

theorem extract_final_content_trim (t : Str) :
    trim (extract_final_content t) = extract_final_content t := by
  unfold extract_final_content
  split
  · exact trim_idem _
  · exact trim_idem _

theorem recoverSections_eq (chain : List (SecId × Sec)) (sim : SimOutcome)
    (m : List (SecId × Sec)) :
    recoverSections chain sim m =
      recoverTasks chain sim ++
        m.filter fun e => ¬ (recoverTasks chain sim).any fun f => f.1 = e.1 := rfl

theorem chainOf_subset {m : List (SecId × Sec)} {c : SecId × Sec} (hc : c ∈ chainOf m) :
    c ∈ m := by
  unfold chainOf at hc
  exact (List.perm_insertionSort posLe m).mem_iff.mp (List.mem_of_mem_filter hc)

theorem chainOf_keys_nodup {m : List (SecId × Sec)} (h : (m.map Prod.fst).Nodup) :
    ((chainOf m).map Prod.fst).Nodup := by
  unfold chainOf
  refine ((List.filter_sublist _).map Prod.fst).nodup ?_
  exact (((List.perm_insertionSort posLe m).map Prod.fst).nodup_iff).mpr h

theorem recoverTasks_keys (chain : List (SecId × Sec)) (sim : SimOutcome) :
    ((recoverTasks chain sim).map Prod.fst).Sublist (chain.map Prod.fst) := by
  unfold recoverTasks
  have h := filterMap_key_sublist
    (fun ie : Nat × (SecId × Sec) =>
      match outAt sim ie.1 with
      | some t =>
        if t ≠ [] then
          some (ie.2.1,
            { ie.2.2 with content :=
                if extract_final_content t ≠ [] ∧ 10 < (extract_final_content t).length then
                  extract_final_content t
                else ie.2.2.content })
        else none
      | none => none)
    (fun ie => ie.2.1)
    (by
      intro x e hxe
      dsimp only at hxe ⊢
      split at hxe
      · split at hxe
        · rw [Option.some_inj] at hxe
          rw [← hxe]
        · cases hxe
      · cases hxe)
    chain.enum
  rwa [map_enum_snd Prod.fst chain] at h

theorem recoverTasks_mem {chain : List (SecId × Sec)} {sim : SimOutcome} {e : SecId × Sec}
    (he : e ∈ recoverTasks chain sim) :
    ∃ c, c ∈ chain ∧ e.1 = c.1 ∧ e.2.level = c.2.level ∧ e.2.title = c.2.title ∧
      e.2.original_position = c.2.original_position ∧
      (e.2.content = c.2.content ∨ (trim e.2.content = e.2.content ∧ e.2.content ≠ [] ∧
        ∃ t, some t ∈ sim.linkOutputs ∧ e.2.content = extract_final_content t)) := by
  unfold recoverTasks at he
  obtain ⟨ie, hie, hF⟩ := List.mem_filterMap.mp he
  dsimp only at hF
  have hc : ie.2 ∈ chain := by
    have h2 := List.mem_map_of_mem Prod.snd hie
    rwa [List.enum_map_snd] at h2
  split at hF
  · rename_i t hteq
    split at hF
    · rw [Option.some_inj] at hF
      refine ⟨ie.2, hc, ?_⟩
      rw [← hF]
      refine ⟨rfl, rfl, rfl, rfl, ?_⟩
      dsimp only
      split
      · rename_i h
        exact Or.inr ⟨extract_final_content_trim t, h.1, t, outAt_mem hteq, rfl⟩
      · exact Or.inl rfl
    · cases hF
  · cases hF

theorem recover_entry_facts {sim : SimOutcome} {d : Str} {e : SecId × Sec}
    (he : e ∈ recoverSections (chainOf (parse_sections d)) sim (parse_sections d)) :
    trim e.2.content = e.2.content ∧ trim e.2.title = e.2.title ∧ '\n' ∉ e.2.title ∧
      (e.1 = SecId.intro → e.2.content ≠ []) ∧
      (e.1 ≠ SecId.intro → 1 ≤ e.2.level ∧ (e.2.level, e.2.title) ∈ headingPairsM d) := by
  rw [recoverSections_eq] at he
  rcases List.mem_append.mp he with hm | hm
  · obtain ⟨c, hc, hkey, hlev, htit, hpos, hcont⟩ := recoverTasks_mem hm
    have hcs : c ∈ parse_sections d := chainOf_subset hc
    obtain ⟨hct, hctt, hcnl, hcintro, hcnon⟩ := parse_entry_facts hcs
    refine ⟨?_, ?_, ?_, ?_, ?_⟩
    · rcases hcont with h | h
      · rw [h]; exact hct
      · exact h.1
    · rw [htit]; exact hctt
    · rw [htit]; exact hcnl
    · intro hi
      have hci : c.1 = SecId.intro := by rw [← hkey]; exact hi
      rcases hcont with h | h
      · rw [h]; exact (hcintro hci).2.2.1
      · exact h.2.1
    · intro hi
      have hci : c.1 ≠ SecId.intro := by rw [← hkey]; exact hi
      obtain ⟨hl, i, _, _, hpair⟩ := hcnon hci
      refine ⟨?_, ?_⟩
      · rw [hlev]; exact hl
      · rw [hlev, htit]; exact hpair
  · have hem := List.mem_of_mem_filter hm
    obtain ⟨hct, hctt, hcnl, hcintro, hcnon⟩ := parse_entry_facts hem
    refine ⟨hct, hctt, hcnl, fun hi => (hcintro hi).2.2.1, fun hi => ?_⟩
    obtain ⟨hl, i, _, _, hpair⟩ := hcnon hi
    exact ⟨hl, hpair⟩

theorem sortedNonIntro_mem {m : List (SecId × Sec)} {e : SecId × Sec}
    (he : e ∈ sortedNonIntro m) : e ∈ m ∧ e.1 ≠ SecId.intro := by
  unfold sortedNonIntro at he
  have h1 := (List.perm_insertionSort posLe _).mem_iff.mp he
  refine ⟨List.mem_of_mem_filter h1, ?_⟩
  have h2 := List.of_mem_filter h1
  simpa using h2

theorem reassemble_no_dangling (m : List (SecId × Sec))
    (hIntro : ∀ s, m.lookup SecId.intro = some s → s.content ≠ [] ∧ trim s.content = s.content)
    (hS : ∀ e ∈ sortedNonIntro m, trim e.2.content = e.2.content ∧ trim e.2.title = e.2.title ∧
      e.2.title ≠ [] ∧ 1 ≤ e.2.level ∧ '\n' ∉ e.2.title)
    (hC : ∀ e ∈ m, ∀ l ∈ splitLines e.2.content, danglingStart l = false) :
    noDangling (reassemble m) = true := by
  rw [noDangling_iff]
  by_cases hne : sortedNonIntro m = []
  · have hparts : reassembleParts m = introP m := by
      unfold reassembleParts
      rw [hne]
      simp
    have hre : reassemble m = trim (joinLines (introP m)) := by
      unfold reassemble
      rw [hparts]
    rw [hre]
    intro l hl
    cases hlook : m.lookup SecId.intro with
    | none =>
      have hip : introP m = [] := by
        unfold introP
        rw [hlook]
      rw [hip] at hl
      rw [show trim (joinLines ([] : List Str)) = [] from rfl] at hl
      rw [show splitLines ([] : Str) = [[]] from rfl] at hl
      rcases List.mem_singleton.mp hl with rfl
      decide
    | some s =>
      have hip : introP m = (if s.content ≠ [] then [s.content] else []) ++ [[]] := by
        unfold introP
        rw [hlook]
      obtain ⟨hsne, hstrim⟩ := hIntro s hlook
      rw [hip, if_pos hsne] at hl
      have hj : joinLines [s.content, ([] : Str)] = s.content ++ ['\n'] := rfl
      rw [show ([s.content] ++ [[]] : List Str) = [s.content, []] from rfl, hj,
        trim_append_nl, hstrim] at hl
      exact hC (SecId.intro, s) (lookup_mem hlook) l hl
  · have hsl := reassemble_splitLines m hIntro hS hne
    intro l hl
    have hl2 : l ∈ introLinesOf m ++ ((sortedNonIntro m).map secLines).flatten := by
      rw [← hsl]
      exact List.mem_append_left _ hl
    rcases List.mem_append.mp hl2 with hm | hm
    · cases hlook : m.lookup SecId.intro with
      | none =>
        have hil : introLinesOf m = [] := by
          unfold introLinesOf
          rw [hlook]
        rw [hil] at hm
        cases hm
      | some s =>
        have hil : introLinesOf m =
            (if s.content ≠ [] then splitLines s.content else []) ++ [[]] := by
          unfold introLinesOf
          rw [hlook]
        rw [hil] at hm
        rcases List.mem_append.mp hm with hm2 | hm2
        · split at hm2
          · exact hC (SecId.intro, s) (lookup_mem hlook) l hm2
          · cases hm2
        · rcases List.mem_singleton.mp hm2 with rfl
          decide
    · rw [List.mem_flatten] at hm
      obtain ⟨ls, hls, hlm⟩ := hm
      obtain ⟨e, hem, rfl⟩ := List.mem_map.mp hls
      obtain ⟨hct, htt, htne2, hlev, hnl⟩ := hS e hem
      unfold secLines at hlm
      rcases List.mem_cons.mp hlm with rfl | hm2
      · exact headerLineOf_not_dangling htt htne2
      · rcases List.mem_append.mp hm2 with hm3 | hm3
        · split at hm3
          · exact hC e (sortedNonIntro_mem hem).1 l hm3
          · cases hm3
        · rcases List.mem_singleton.mp hm3 with rfl
          decide

theorem recoverSections_keys_nodup (chain m : List (SecId × Sec)) (sim : SimOutcome)
    (hc : (chain.map Prod.fst).Nodup) (hm : (m.map Prod.fst).Nodup) :
    ((recoverSections chain sim m).map Prod.fst).Nodup := by
  rw [recoverSections_eq, List.map_append]
  apply List.Nodup.append
  · exact (recoverTasks_keys chain sim).nodup hc
  · exact ((List.filter_sublist _).map Prod.fst).nodup hm
  · intro k hk1 hk2
    obtain ⟨f, hf, hfk⟩ := List.mem_map.mp hk1
    obtain ⟨e, he, hek⟩ := List.mem_map.mp hk2
    have he2 := (List.mem_filter.mp he).2
    have hany : ((recoverTasks chain sim).any fun g => decide (g.1 = e.1)) = true := by
      apply List.any_eq_true.mpr
      refine ⟨f, hf, ?_⟩
      rw [decide_eq_true_iff, hfk, hek]
    have he3 : ¬ ((recoverTasks chain sim).any fun g => decide (g.1 = e.1)) = true := by
      exact of_decide_eq_true he2
    exact he3 hany

theorem meta_nodup_of_key_nodup {l : List (SecId × Sec)} (h : (l.map Prod.fst).Nodup) :
    (l.map secMeta).Nodup := by
  have h2 : ((l.map secMeta).map fun t => t.1) = l.map Prod.fst := by
    rw [List.map_map]
    rfl
  exact List.Nodup.of_map (fun t => t.1) (by rw [h2]; exact h)

theorem recoverSections_meta_mem (chain m : List (SecId × Sec)) (sim : SimOutcome)
    (hsub : ∀ c ∈ chain, c ∈ m) (hm : (m.map Prod.fst).Nodup) :
    ∀ x, x ∈ (recoverSections chain sim m).map secMeta ↔ x ∈ m.map secMeta := by
  intro x
  constructor
  · intro hx
    obtain ⟨e, he, rfl⟩ := List.mem_map.mp hx
    rw [recoverSections_eq] at he
    rcases List.mem_append.mp he with hm1 | hm1
    · obtain ⟨c, hc, hk, hl, ht, hp, _⟩ := recoverTasks_mem hm1
      have hme : secMeta e = secMeta c := by
        unfold secMeta
        rw [hk, hl, ht, hp]
      rw [hme]
      exact List.mem_map_of_mem secMeta (hsub c hc)
    · exact List.mem_map_of_mem secMeta (List.mem_of_mem_filter hm1)
  · intro hx
    obtain ⟨e, he, rfl⟩ := List.mem_map.mp hx
    by_cases hcov : ((recoverTasks chain sim).any fun f => decide (f.1 = e.1)) = true
    · obtain ⟨f, hf, hfk⟩ := List.any_eq_true.mp hcov
      rw [decide_eq_true_iff] at hfk
      obtain ⟨c, hc, hk, hl, ht, hp, _⟩ := recoverTasks_mem hf
      have hce : c = e := key_inj hm (hsub c hc) he (by rw [← hk]; exact hfk)
      have hme : secMeta f = secMeta e := by
        unfold secMeta
        rw [hk, hl, ht, hp, hce]
      rw [← hme]
      apply List.mem_map_of_mem secMeta
      rw [recoverSections_eq]
      exact List.mem_append.mpr (Or.inl hf)
    · apply List.mem_map_of_mem secMeta
      rw [recoverSections_eq]
      refine List.mem_append.mpr (Or.inr ?_)
      apply List.mem_filter.mpr
      refine ⟨he, ?_⟩
      exact decide_eq_true hcov

theorem recoverSections_meta_perm (chain m : List (SecId × Sec)) (sim : SimOutcome)
    (hsub : ∀ c ∈ chain, c ∈ m) (hc : (chain.map Prod.fst).Nodup)
    (hm : (m.map Prod.fst).Nodup) :
    ((recoverSections chain sim m).map secMeta).Perm (m.map secMeta) := by
  rw [List.perm_ext_iff_of_nodup
    (meta_nodup_of_key_nodup (recoverSections_keys_nodup chain m sim hc hm))
    (meta_nodup_of_key_nodup hm)]
  exact recoverSections_meta_mem chain m sim hsub hm

theorem filter_fst_map_secMeta (l : List (SecId × Sec)) :
    ((l.map secMeta).filter fun t => t.1 ≠ SecId.intro) =
      (l.filter fun e => e.1 ≠ SecId.intro).map secMeta := by
  induction l with
  | nil => rfl
  | cons e l ih =>
    by_cases he : e.1 = SecId.intro
    · have h1 : ((e :: l).map secMeta).filter (fun t => decide (t.1 ≠ SecId.intro)) =
          (l.map secMeta).filter (fun t => decide (t.1 ≠ SecId.intro)) := by
        rw [List.map_cons, List.filter_cons, if_neg]
        simp [secMeta, he]
      have h2 : ((e :: l).filter fun x => decide (x.1 ≠ SecId.intro)) =
          l.filter fun x => decide (x.1 ≠ SecId.intro) := by
        rw [List.filter_cons, if_neg]
        simp [he]
      rw [h1, h2, ih]
    · have h1 : ((e :: l).map secMeta).filter (fun t => decide (t.1 ≠ SecId.intro)) =
          secMeta e :: (l.map secMeta).filter (fun t => decide (t.1 ≠ SecId.intro)) := by
        rw [List.map_cons, List.filter_cons, if_pos]
        simp [secMeta, he]
      have h2 : ((e :: l).filter fun x => decide (x.1 ≠ SecId.intro)) =
          e :: l.filter fun x => decide (x.1 ≠ SecId.intro) := by
        rw [List.filter_cons, if_pos]
        simp [he]
      rw [h1, h2, List.map_cons, ih]

theorem sections_filter_nonintro (d : Str)
    (h : ∀ p ∈ headingPairsM d, hasSubstr endSentinel p.2 = false) :
    ((parse_sections d).filter fun e => e.1 ≠ SecId.intro) = bodySecs d := by
  rw [parse_no_delete h, List.filter_append]
  have h1 : ((introSecs d).filter fun e => e.1 ≠ SecId.intro) = [] := by
    unfold introSecs
    split
    · simp
    · rfl
  have h2 : ((bodySecs d).filter fun e => e.1 ≠ SecId.intro) = bodySecs d := by
    apply List.filter_eq_self.mpr
    intro e he
    unfold bodySecs at he
    obtain ⟨ie, _, rfl⟩ := List.mem_map.mp he
    simp [groupSec]
  rw [h1, h2, List.nil_append]

theorem recover_meta_eq (sim : SimOutcome) (d : Str)
    (h : ∀ p ∈ headingPairsM d, hasSubstr endSentinel p.2 = false) :
    (sortedNonIntro (recoverSections (chainOf (parse_sections d)) sim
      (parse_sections d))).map secMeta = (bodySecs d).map secMeta := by
  apply sortedNonIntro_of_meta_perm _ (enum_pairwise_fst' d)
  have hp := recoverSections_meta_perm (chainOf (parse_sections d)) (parse_sections d) sim
    (fun c hc => chainOf_subset hc) (chainOf_keys_nodup (parse_keys_nodup d))
    (parse_keys_nodup d)
  have hf := hp.filter fun t => decide (t.1 ≠ SecId.intro)
  rw [filter_fst_map_secMeta, filter_fst_map_secMeta, sections_filter_nonintro d h] at hf
  exact hf

/-! ### Heading pairs of a reassembled map -/

theorem headInfo_nil : headInfo ([] : Str) = none := by decide

theorem secLines_heads_sublist (l : List (SecId × Sec))
    (h : ∀ e ∈ l, headInfo (headerLineOf e.2) = some (e.2.level, e.2.title)) :
    (l.map fun e => (e.2.level, e.2.title)).Sublist
      (((l.map secLines).flatten).filterMap headInfo) := by
  induction l with
  | nil => simp
  | cons e l ih =>
    simp only [List.map_cons, List.flatten_cons, List.filterMap_append]
    have h1 : (secLines e).filterMap headInfo =
        (e.2.level, e.2.title) ::
          ((if e.2.content ≠ [] then splitLines e.2.content else []) ++ [[]]).filterMap
            headInfo := by
      unfold secLines
      simp only [List.filterMap_cons, h e (by simp)]
    rw [h1, List.cons_append]
    refine List.Sublist.cons₂ _ ?_
    refine (ih fun x hx => h x (by simp [hx])).trans ?_
    exact List.sublist_append_right _ _

theorem headingPairs_reassemble (m : List (SecId × Sec))
    (hIntro : ∀ s, m.lookup SecId.intro = some s → s.content ≠ [] ∧ trim s.content = s.content)
    (hS : ∀ e ∈ sortedNonIntro m, trim e.2.content = e.2.content ∧ trim e.2.title = e.2.title ∧
      e.2.title ≠ [] ∧ 1 ≤ e.2.level ∧ '\n' ∉ e.2.title)
    (hne : sortedNonIntro m ≠ []) :
    ((sortedNonIntro m).map fun e => (e.2.level, e.2.title)).Sublist
      (headingPairs (reassemble m)) := by
  have hsl := reassemble_splitLines m hIntro hS hne
  have hhp : headingPairs (reassemble m) =
      (introLinesOf m).filterMap headInfo ++
        (((sortedNonIntro m).map secLines).flatten).filterMap headInfo := by
    unfold headingPairs
    have h0 : (splitLines (reassemble m)).filterMap headInfo =
        (splitLines (reassemble m) ++ [[]]).filterMap headInfo := by
      rw [List.filterMap_append]
      simp [headInfo_nil]
    rw [h0, hsl, List.filterMap_append]
  rw [hhp]
  refine List.Sublist.trans ?_ (List.sublist_append_right _ _)
  apply secLines_heads_sublist
  intro e he
  rw [headerLineOf_eq]
  exact headInfo_headerLine (hS e he).2.2.2.1 (hS e he).2.1

/-! ### Claim C4 -/

set_option maxRecDepth 8000 in
/-- C4, counterexample: a successful pipeline run whose kickoff text is a
plausible-looking paragraph with no heading lines is returned as-is, so the
heading pairs of the input are not a subsequence of those of the output —
the success path performs no structural check. -/
theorem c4_counterexample :
    ¬ (headingPairsM ("# Doc\n\nSome body paragraph." : String).data).Sublist
        (headingPairsM (enhance_content
          ⟨some ("A fifty-plus character output with no heading lines at all here." :
            String).data, [], false⟩
          ("# Doc\n\nSome body paragraph." : String).data)) := by
  decide

/-! ### Claim C7: extract_final_content -/

theorem code_blocks_fence_none (t : Str) :
    code_blocks ('`' :: '`' :: '`' :: t) none = code_blocks t (some []) := rfl

theorem code_blocks_fence_some (t acc : Str) :
    code_blocks ('`' :: '`' :: '`' :: t) (some acc) = mkCapture acc :: code_blocks t none := rfl

theorem code_blocks_not_fence_none {c : Char} {t : Str}
    (h : ¬ (c = '`' ∧ t.take 2 = ['`', '`'])) :
    code_blocks (c :: t) none = code_blocks t none := by
  rw [code_blocks.eq_def]
  split <;> simp_all

theorem code_blocks_not_fence_some {c : Char} {t acc : Str}
    (h : ¬ (c = '`' ∧ t.take 2 = ['`', '`'])) :
    code_blocks (c :: t) (some acc) = code_blocks t (some (acc ++ [c])) := by
  rw [code_blocks.eq_def]
  split <;> simp_all

theorem take_two_pair {t : Str} :
    t.take 2 = ['`', '`'] ↔ ∃ t', t = '`' :: '`' :: t' := by
  rcases t with _ | ⟨a, _ | ⟨b, t''⟩⟩ <;> simp

theorem code_blocks_tickfree {s : Str} (h : ∀ c ∈ s, c ≠ '`') (st : Option Str) :
    code_blocks s st = [] := by
  induction s generalizing st with
  | nil => cases st <;> rfl
  | cons c t ih =>
    have hc : c ≠ '`' := h c (by simp)
    have hns : ¬ (c = '`' ∧ t.take 2 = ['`', '`']) := fun hx => hc hx.1
    have ht : ∀ x ∈ t, x ≠ '`' := fun x hx => h x (by simp [hx])
    cases st with
    | none => rw [code_blocks_not_fence_none hns]; exact ih ht none
    | some acc => rw [code_blocks_not_fence_some hns]; exact ih ht _

theorem code_blocks_ws_append {w r : Str} (hw : ∀ c ∈ w, c ≠ '`') :
    code_blocks (w ++ r) none = code_blocks r none := by
  induction w with
  | nil => rfl
  | cons c w' ih =>
    have hc : c ≠ '`' := hw c (by simp)
    rw [List.cons_append, code_blocks_not_fence_none (fun hx => hc hx.1)]
    exact ih fun x hx => hw x (by simp [hx])

theorem code_blocks_append_ws_aux {w : Str} (hw : ∀ c ∈ w, c ≠ '`') :
    ∀ (n : Nat) (r : Str), r.length ≤ n → ∀ st, code_blocks (r ++ w) st = code_blocks r st := by
  intro n
  induction n with
  | zero =>
    intro r hr st
    rw [List.length_eq_zero.mp (Nat.le_zero.mp hr)]
    exact code_blocks_tickfree hw st
  | succ n ih =>
    intro r hr st
    rcases r with _ | ⟨c, t⟩
    · exact code_blocks_tickfree hw st
    by_cases hf : c = '`' ∧ t.take 2 = ['`', '`']
    · obtain ⟨hc1, hc2⟩ := hf
      obtain ⟨t', rfl⟩ := take_two_pair.mp hc2
      subst hc1
      have hlen : t'.length ≤ n := by
        simp at hr
        omega
      cases st with
      | none =>
        rw [show ('`' :: '`' :: '`' :: t') ++ w = '`' :: '`' :: '`' :: (t' ++ w) from rfl,
          code_blocks_fence_none, code_blocks_fence_none]
        exact ih t' hlen _
      | some acc =>
        rw [show ('`' :: '`' :: '`' :: t') ++ w = '`' :: '`' :: '`' :: (t' ++ w) from rfl,
          code_blocks_fence_some, code_blocks_fence_some]
        rw [ih t' hlen none]
    · have hf' : ¬ (c = '`' ∧ (t ++ w).take 2 = ['`', '`']) := by
        rintro ⟨rfl, htw⟩
        obtain ⟨t2, ht2⟩ := take_two_pair.mp htw
        rcases t with _ | ⟨a, _ | ⟨b, t''⟩⟩
        · simp only [List.nil_append] at ht2
          exact hw '`' (by simp [ht2]) rfl
        · have ha : a = '`' := by
            have := congrArg (fun l => l.headD ' ') ht2
            simpa using this
          subst ha
          have hwmem : '`' ∈ w := by
            have h3 := congrArg (fun l => l.tail.headD ' ') ht2
            rcases w with _ | ⟨w0, w'⟩
            · simp at ht2
            · simp at h3
              simp [h3]
          exact hw '`' hwmem rfl
        · have h2 : (a :: b :: t'').take 2 = ['`', '`'] := by
            have ha := congrArg (fun l => l.headD ' ') ht2
            have hb := congrArg (fun l => l.tail.headD ' ') ht2
            simp at ha hb
            simp [ha, hb]
          exact hf ⟨rfl, h2⟩
      have hlen : t.length ≤ n := by
        simp at hr
        omega
      cases st with
      | none =>
        rw [List.cons_append, code_blocks_not_fence_none hf',
          code_blocks_not_fence_none (fun hx => hf hx)]
        exact ih t hlen none
      | some acc =>
        rw [List.cons_append, code_blocks_not_fence_some hf',
          code_blocks_not_fence_some (fun hx => hf hx)]
        exact ih t hlen _

theorem code_blocks_trim (s : Str) :
    code_blocks (trim s) none = code_blocks s none := by
  obtain ⟨u, v, hu, hv, hs⟩ := trim_decomp s
  have hu' : ∀ c ∈ u, c ≠ '`' := by
    intro c hc he
    have := hu c hc
    rw [he] at this
    exact absurd this (by decide)
  have hv' : ∀ c ∈ v, c ≠ '`' := by
    intro c hc he
    have := hv c hc
    rw [he] at this
    exact absurd this (by decide)
  conv_rhs => rw [hs]
  rw [List.append_assoc, code_blocks_ws_append hu',
    code_blocks_append_ws_aux hv' (trim s).length (trim s) le_rfl none]

theorem trim_infix_self (s : Str) : trim s <:+: s := by
  obtain ⟨u, v, _, _, hs⟩ := trim_decomp s
  exact ⟨u, v, hs.symm⟩

theorem mkCapture_infix_acc (acc : Str) : mkCapture acc <:+: acc := by
  unfold mkCapture stripMarkdownTag
  split
  · exact (trim_infix_self _).trans ((List.drop_suffix 8 acc).isInfix)
  · exact trim_infix_self acc

theorem code_blocks_of_no_fence {s : Str} (h : ¬ fence <:+: s) :
    code_blocks s none = [] := by
  induction s with
  | nil => rfl
  | cons c t ih =>
    have hns : ¬ (c = '`' ∧ t.take 2 = ['`', '`']) := by
      rintro ⟨rfl, h2⟩
      obtain ⟨t', rfl⟩ := take_two_pair.mp h2
      exact h ⟨[], t', rfl⟩
    rw [code_blocks_not_fence_none hns]
    exact ih fun hin => h (List.infix_cons hin)

theorem infix_append_singleton {pat A : Str} {x : Char}
    (h : pat <:+: A ++ [x]) :
    pat <:+: A ∨ ∃ u, A ++ [x] = u ++ pat := by
  obtain ⟨u, v, he⟩ := h
  rcases List.eq_nil_or_concat v with rfl | ⟨v', y, rfl⟩
  · right
    exact ⟨u, by rw [← he]; simp⟩
  · left
    rw [List.concat_eq_append, ← List.append_assoc] at he
    obtain ⟨h1, _⟩ := List.append_inj' he (by simp)
    exact ⟨u, v', h1⟩

theorem code_blocks_captures :
    ∀ (n : Nat) (s : Str), s.length ≤ n →
      (∀ b ∈ code_blocks s none, ∃ acc, ¬ fence <:+: acc ∧ b = mkCapture acc) ∧
      (∀ acc, ¬ fence <:+: (acc ++ s.take 2) →
        ∀ b ∈ code_blocks s (some acc), ∃ a2, ¬ fence <:+: a2 ∧ b = mkCapture a2) := by
  intro n
  induction n with
  | zero =>
    intro s hs
    rw [List.length_eq_zero.mp (Nat.le_zero.mp hs)]
    exact ⟨by simp [code_blocks], by intro acc _ b hb; simp [code_blocks] at hb⟩
  | succ n ih =>
    intro s hs
    rcases s with _ | ⟨c, t⟩
    · exact ⟨by simp [code_blocks], by intro acc _ b hb; simp [code_blocks] at hb⟩
    by_cases hf : c = '`' ∧ t.take 2 = ['`', '`']
    · obtain ⟨hc1, hc2⟩ := hf
      obtain ⟨t', rfl⟩ := take_two_pair.mp hc2
      subst hc1
      have hlen : t'.length ≤ n := by
        simp at hs
        omega
      constructor
      · rw [code_blocks_fence_none]
        intro b hb
        refine (ih t' hlen).2 [] ?_ b hb
        intro hin
        have h1 := hin.length_le
        simp only [fence, List.length_cons, List.length_nil, List.nil_append,
          List.length_take] at h1
        omega
      · intro acc hacc
        rw [code_blocks_fence_some]
        intro b hb
        rcases List.mem_cons.mp hb with rfl | hb
        · refine ⟨acc, ?_, rfl⟩
          intro hin
          obtain ⟨u, v, he⟩ := hin
          exact hacc ⟨u, v ++ List.take 2 ('`' :: '`' :: '`' :: t'), by
            rw [← List.append_assoc, he]⟩
        · exact (ih t' hlen).1 b hb
    · have hlen : t.length ≤ n := by
        simp at hs
        omega
      constructor
      · rw [code_blocks_not_fence_none hf]
        exact (ih t hlen).1
      · intro acc hacc
        rw [code_blocks_not_fence_some hf]
        refine (ih t hlen).2 (acc ++ [c]) ?_
        rcases t with _ | ⟨r0, t2⟩
        · simpa using hacc
        rcases t2 with _ | ⟨r1, t3⟩
        · simpa using hacc
        -- known: no fence inside acc ++ [c, r0]; goal: none inside acc ++ [c] ++ [r0, r1]
        intro hin
        have hA : ¬ fence <:+: (acc ++ [c, r0]) := by
          intro h2
          apply hacc
          have : acc ++ List.take 2 (c :: r0 :: r1 :: t3) = acc ++ [c, r0] := by simp
          rw [this]
          exact h2
        have hin' : fence <:+: ((acc ++ [c, r0]) ++ [r1]) := by
          have he : (acc ++ [c]) ++ List.take 2 (r0 :: r1 :: t3) = (acc ++ [c, r0]) ++ [r1] := by
            simp
          rw [he] at hin
          exact hin
        rcases infix_append_singleton hin' with h2 | ⟨u, hu⟩
        · exact hA h2
        · have he2 : acc ++ [c, r0, r1] = u ++ fence := by
            rw [← hu]
            simp
          obtain ⟨_, h3⟩ := List.append_inj' he2 (by simp [fence])
          have h4 : c = '`' ∧ r0 = '`' ∧ r1 = '`' := by
            simpa [fence, List.cons.injEq] using h3
          obtain ⟨rfl, rfl, rfl⟩ := h4
          exact hf ⟨rfl, by simp⟩

theorem maxByLen_mem (acc : Str) (bs : List Str) :
    maxByLen acc bs = acc ∨ maxByLen acc bs ∈ bs := by
  induction bs generalizing acc with
  | nil => exact Or.inl rfl
  | cons b bs ih =>
    rw [maxByLen]
    rcases ih (if acc.length < b.length then b else acc) with h | h
    · rw [h]
      split
      · exact Or.inr (by simp)
      · exact Or.inl rfl
    · exact Or.inr (by simp [h])

theorem maxByLen_ge (acc : Str) (bs : List Str) :
    acc.length ≤ (maxByLen acc bs).length ∧
      ∀ b ∈ bs, b.length ≤ (maxByLen acc bs).length := by
  induction bs generalizing acc with
  | nil => exact ⟨le_rfl, by simp⟩
  | cons b bs ih =>
    rw [maxByLen]
    obtain ⟨h1, h2⟩ := ih (if acc.length < b.length then b else acc)
    constructor
    · refine le_trans ?_ h1
      split <;> omega
    · intro b' hb'
      rcases List.mem_cons.mp hb' with rfl | hb'
      · refine le_trans ?_ h1
        split <;> omega
      · exact h2 b' hb'

/-- C7: `extract_final_content` is idempotent on any text with at most one
fenced code block; when one or more fenced blocks are present it returns the
first longest capture (by character count), stripped; otherwise it returns
the raw input, stripped; and its result is always stripped. -/
theorem extract_final_content_spec (X : Str) :
    ((code_blocks X none).length ≤ 1 →
      extract_final_content (extract_final_content X) = extract_final_content X) ∧
    (code_blocks X none = [] → extract_final_content X = trim X) ∧
    (∀ b bs, code_blocks X none = b :: bs →
      extract_final_content X = trim (maxByLen b bs) ∧
      maxByLen b bs ∈ code_blocks X none ∧
      ∀ b' ∈ code_blocks X none, b'.length ≤ (maxByLen b bs).length) ∧
    trim (extract_final_content X) = extract_final_content X := by
  have hcap : ∀ b ∈ code_blocks X none, ¬ fence <:+: b ∧ trim b = b := by
    intro b hb
    obtain ⟨acc, hacc, rfl⟩ := (code_blocks_captures X.length X le_rfl).1 b hb
    constructor
    · intro hin
      exact hacc (hin.trans (mkCapture_infix_acc acc))
    · unfold mkCapture
      exact trim_idem _
  refine ⟨?_, ?_, ?_, ?_⟩
  · intro hlen
    cases hX : code_blocks X none with
    | nil =>
      have h1 : extract_final_content X = trim X := by
        unfold extract_final_content
        rw [hX]
      rw [h1]
      have h2 : code_blocks (trim X) none = [] := by
        rw [code_blocks_trim, hX]
      unfold extract_final_content
      rw [h2, trim_idem]
    | cons b bs =>
      have hbs : bs = [] := by
        rw [hX] at hlen
        simp at hlen
        exact hlen
      subst hbs
      have hb := hcap b (by rw [hX]; simp)
      have h1 : extract_final_content X = b := by
        unfold extract_final_content
        rw [hX]
        exact hb.2
      rw [h1]
      unfold extract_final_content
      rw [code_blocks_of_no_fence hb.1]
      exact hb.2
  · intro h
    unfold extract_final_content
    rw [h]
  · intro b bs h
    refine ⟨by unfold extract_final_content; rw [h], ?_, ?_⟩
    · rcases maxByLen_mem b bs with h2 | h2
      · rw [h, h2]
        simp
      · rw [h]
        simp [h2]
    · intro b' hb'
      rw [h] at hb'
      rcases List.mem_cons.mp hb' with rfl | hb'
      · exact (maxByLen_ge b' bs).1
      · exact (maxByLen_ge b bs).2 b' hb'
  · unfold extract_final_content
    cases code_blocks X none
    · exact trim_idem X
    · exact trim_idem _

/-- C7 witness: idempotence evaluated on a document with one fenced block. -/
theorem extract_final_content_spec_witness :
    (code_blocks ("text ```markdown\nhello world\n``` tail" : String).data none).length ≤ 1 ∧
    extract_final_content
        (extract_final_content ("text ```markdown\nhello world\n``` tail" : String).data) =
      extract_final_content ("text ```markdown\nhello world\n``` tail" : String).data :=
  ⟨by decide, (extract_final_content_spec _).1 (by decide)⟩

/-- C8: both chain builders iterate sections in ascending original position
(`posLe`-sorted) and create no task for a section whose stripped body is
empty; the default chain (`src/lib/enhancer.py`) processes every section with
nonempty stripped content, while the bounded chain (`lib/enhancer.py`) fills
at most 5 task slots taken from the sections with the lowest original
positions (every processed section's sort key is at most that of every
section left beyond the cap). -/
theorem chain_building (sections : List (SecId × Sec)) :
    List.Pairwise posLe (chainOf sections) ∧
    (∀ e ∈ chainOf sections, trim e.2.content ≠ []) ∧
    (∀ e ∈ sections, trim e.2.content ≠ [] → e ∈ chainOf sections) ∧
    List.Pairwise posLe (chainOfV1 sections) ∧
    (∀ e ∈ chainOfV1 sections, trim e.2.content ≠ []) ∧
    (chainOfV1 sections).length ≤ 5 ∧
    (∀ e ∈ chainOfV1 sections, ∀ e' ∈ (List.insertionSort posLe sections).drop 5,
      posKey e ≤ posKey e') := by
  have hsorted : List.Pairwise posLe (List.insertionSort posLe sections) :=
    List.sorted_insertionSort posLe sections
  refine ⟨?_, ?_, ?_, ?_, ?_, ?_, ?_⟩
  · exact hsorted.sublist (List.filter_sublist _)
  · intro e he
    simpa using (List.mem_filter.mp he).2
  · intro e he hne
    exact List.mem_filter.mpr ⟨(List.mem_insertionSort posLe).mpr he, by simpa using hne⟩
  · exact (hsorted.sublist (List.take_sublist 5 _)).sublist (List.filter_sublist _)
  · intro e he
    simpa using (List.mem_filter.mp he).2
  · calc (chainOfV1 sections).length
        ≤ ((List.insertionSort posLe sections).take 5).length :=
          List.length_filter_le _ _
      _ ≤ 5 := by simp [List.length_take]
  · intro e he e' he'
    have hmem : e ∈ (List.insertionSort posLe sections).take 5 :=
      List.mem_of_mem_filter he
    have hsplit : List.Pairwise posLe
        ((List.insertionSort posLe sections).take 5 ++
          (List.insertionSort posLe sections).drop 5) := by
      rw [List.take_append_drop]
      exact hsorted
    exact (List.pairwise_append.mp hsplit).2.2 e hmem e' he'

/-- C8 witness: the chain laws evaluated on a concrete parsed section list. -/
theorem chain_building_witness :
    (SecId.sec 0, (⟨1, ("A" : String).data, ("body" : String).data,
        ("# A" : String).data, some 0⟩ : Sec)) ∈
      chainOf (parse_sections ("# A\nbody\n# B\n# C\nmore" : String).data) :=
  (chain_building (parse_sections ("# A\nbody\n# B\n# C\nmore" : String).data)).2.2.1
    _ (by decide) (by decide)

/-! ### Claim C6: the degenerate-output guard -/

/-- C6: in the placeholder-repair guard, a re-parsed section is flagged
exactly when its stripped content starts with `<!--` or is shorter than 20
characters (`placeholderFlag`); every flagged section whose id maps to a
nonempty original section has its content replaced by that (stripped)
original content, all other sections are kept unchanged; the repaired
document is reassembled exactly when some replacement occurred, otherwise
the improved document is returned untouched; and on the spec's scenario the
`Facts` placeholder `<!-- empty -->` is restored to `A.` while the `Intro`
section is left as the model produced it. -/
theorem validateAndRepair_spec :
    (∀ (improved : Str) (sections : List (SecId × Sec)) (e : SecId × Sec),
      e ∈ parse_sections improved →
        (placeholderFlag (trim e.2.content) = true ∧ origContent sections e.1 ≠ [] →
          (e.1, { e.2 with content := origContent sections e.1 }) ∈
            repairedMap improved sections) ∧
        (¬ (placeholderFlag (trim e.2.content) = true ∧ origContent sections e.1 ≠ []) →
          e ∈ repairedMap improved sections)) ∧
    (∀ (improved : Str) (sections : List (SecId × Sec)),
      placeholderFlag (trim ("<!-- empty -->" : String).data) = true ∧
      (anyRepaired improved sections = false → validateAndRepair improved sections = improved) ∧
      (anyRepaired improved sections = true →
        validateAndRepair improved sections = reassemble (repairedMap improved sections))) ∧
    validateAndRepair
        ("# Title\n\n## Intro\n\nThis intro section has plenty of characters now.\n\n## Facts\n\n<!-- empty -->" : String).data
        (parse_sections ("# Title\n\n## Intro\n\nHello.\n\n## Facts\n\nA.\n" : String).data) =
      ("# Title\n\n## Intro\nThis intro section has plenty of characters now.\n\n## Facts\nA." : String).data := by
  refine ⟨?_, ?_, by decide⟩
  · intro improved sections e he
    constructor
    · intro hcond
      have : repairSec sections e = (e.1, { e.2 with content := origContent sections e.1 }) := by
        unfold repairSec
        rw [if_pos hcond]
      rw [← this]
      exact List.mem_map_of_mem _ he
    · intro hcond
      have : repairSec sections e = e := by
        unfold repairSec
        rw [if_neg hcond]
      rw [← this]
      exact List.mem_map_of_mem _ he
  · intro improved sections
    refine ⟨by decide, ?_, ?_⟩
    · intro h
      unfold validateAndRepair
      rw [h]
      rfl
    · intro h
      unfold validateAndRepair
      rw [h]
      rfl

/-- C6 witness: the replacement law evaluated on the scenario's `Facts`
section. -/
theorem validateAndRepair_spec_witness :
    (SecId.sec 2, (⟨2, ("Facts" : String).data,
        ("A." : String).data, ("## Facts" : String).data, some 2⟩ : Sec)) ∈
      repairedMap
        ("# Title\n\n## Intro\n\nThis intro section has plenty of characters now.\n\n## Facts\n\n<!-- empty -->" : String).data
        (parse_sections ("# Title\n\n## Intro\n\nHello.\n\n## Facts\n\nA.\n" : String).data) :=
  ((validateAndRepair_spec.1 _ _
      (SecId.sec 2, ⟨2, ("Facts" : String).data, ("<!-- empty -->" : String).data,
        ("## Facts" : String).data, some 2⟩)
      (by decide)).1 (by decide) : _)

/-! ### Claim C10: the guard's exception handling -/

/-- C10: the guard step inside `enhance_content` swallows any exception of
its internal re-parse/flag/reassemble block (modelled by the boolean oracle)
and keeps the unrepaired improved document; when it does run, it returns
either the improved document unchanged or the reassembly of the repaired
map, and every section of that repaired map is the corresponding re-parsed
section either untouched or with its content restored to the stripped
original content — nothing else is ever changed. -/
theorem placeholderRepairStep_spec :
    (∀ (improved : Str) (sections : List (SecId × Sec)),
      placeholderRepairStep true improved sections = improved) ∧
    (∀ (improved : Str) (sections : List (SecId × Sec)),
      placeholderRepairStep false improved sections = validateAndRepair improved sections) ∧
    (∀ (improved : Str) (sections : List (SecId × Sec)),
      validateAndRepair improved sections = improved ∨
      validateAndRepair improved sections = reassemble (repairedMap improved sections)) ∧
    (∀ (improved : Str) (sections : List (SecId × Sec)) (e : SecId × Sec),
      e ∈ repairedMap improved sections →
        ∃ e0 ∈ parse_sections improved, e.1 = e0.1 ∧ e.2.level = e0.2.level ∧
          e.2.title = e0.2.title ∧ e.2.full_header = e0.2.full_header ∧
          e.2.original_position = e0.2.original_position ∧
          (e.2.content = e0.2.content ∨ e.2.content = origContent sections e0.1)) := by
  refine ⟨fun _ _ => rfl, fun _ _ => rfl, ?_, ?_⟩
  · intro improved sections
    unfold validateAndRepair
    split
    · exact Or.inr rfl
    · exact Or.inl rfl
  · intro improved sections e he
    obtain ⟨e0, he0, hrep⟩ := List.mem_map.mp he
    refine ⟨e0, he0, ?_⟩
    unfold repairSec at hrep
    split at hrep
    · rw [← hrep]
      exact ⟨rfl, rfl, rfl, rfl, rfl, Or.inr rfl⟩
    · rw [← hrep]
      exact ⟨rfl, rfl, rfl, rfl, rfl, Or.inl rfl⟩

/-- C10 witness: the repaired map of the scenario only restores original
content, checked on its `Facts` entry. -/
theorem placeholderRepairStep_spec_witness :
    placeholderRepairStep true ("x" : String).data [] = ("x" : String).data ∧
    (∃ e0 ∈ parse_sections
        ("# Title\n\n## Intro\n\nThis intro section has plenty of characters now.\n\n## Facts\n\n<!-- empty -->" : String).data,
      (SecId.sec 2, (⟨2, ("Facts" : String).data, ("A." : String).data,
          ("## Facts" : String).data, some 2⟩ : Sec)).1 = e0.1 ∧
      (⟨2, ("Facts" : String).data, ("A." : String).data,
          ("## Facts" : String).data, some 2⟩ : Sec).level = e0.2.level ∧
      (⟨2, ("Facts" : String).data, ("A." : String).data,
          ("## Facts" : String).data, some 2⟩ : Sec).title = e0.2.title ∧
      (⟨2, ("Facts" : String).data, ("A." : String).data,
          ("## Facts" : String).data, some 2⟩ : Sec).full_header = e0.2.full_header ∧
      (⟨2, ("Facts" : String).data, ("A." : String).data,
          ("## Facts" : String).data, some 2⟩ : Sec).original_position = e0.2.original_position ∧
      ((⟨2, ("Facts" : String).data, ("A." : String).data,
          ("## Facts" : String).data, some 2⟩ : Sec).content = e0.2.content ∨
        (⟨2, ("Facts" : String).data, ("A." : String).data,
          ("## Facts" : String).data, some 2⟩ : Sec).content =
          origContent
            (parse_sections ("# Title\n\n## Intro\n\nHello.\n\n## Facts\n\nA.\n" : String).data)
            e0.1)) :=
  ⟨placeholderRepairStep_spec.1 _ _,
    placeholderRepairStep_spec.2.2.2
      ("# Title\n\n## Intro\n\nThis intro section has plenty of characters now.\n\n## Facts\n\n<!-- empty -->" : String).data
      (parse_sections ("# Title\n\n## Intro\n\nHello.\n\n## Facts\n\nA.\n" : String).data)
      (SecId.sec 2, ⟨2, ("Facts" : String).data, ("A." : String).data,
        ("## Facts" : String).data, some 2⟩)
      (by decide)⟩

/-! ### Lines of a stripped text -/

theorem drop_takeWhile_length {α : Type _} (p : α → Bool) (l : List α) :
    l.drop (l.takeWhile p).length = l.dropWhile p := by
  induction l with
  | nil => rfl
  | cons c cs ih =>
    by_cases hc : p c = true
    · simp [List.takeWhile_cons, List.dropWhile_cons, hc, ih]
    · simp [List.takeWhile_cons, List.dropWhile_cons, hc]

theorem takeWhile_hash_of_ne {c : Char} (hc : ¬ c = '#') (k : Nat) (t : Str) :
    (List.replicate k '#' ++ c :: t).takeWhile (fun x => decide (x = '#')) =
      List.replicate k '#' := by
  induction k with
  | zero => simp [List.takeWhile_cons, hc]
  | succ n ih => simp [List.replicate_succ, List.takeWhile_cons, ih]

theorem headInfo_replicate_ws {k : Nat} {c : Char} {t : Str} (hk : 1 ≤ k)
    (hc : c.isWhitespace) :
    headInfo (List.replicate k '#' ++ c :: t) = some (k, trim (c :: t)) := by
  have hcne : ¬ c = '#' := by
    intro h
    rw [h] at hc
    exact absurd hc (by decide)
  have h1 := takeWhile_hash_of_ne hcne k t
  have h2 : (List.replicate k '#' ++ c :: t).drop k = c :: t := by
    rw [List.drop_append_of_le_length (by simp)]
    simp
  simp only [headInfo, h1, List.length_replicate, h2]
  rw [if_pos ⟨hk, hc⟩]

theorem headInfo_some_decomp {l : Str} {k : Nat} {t : Str} (h : headInfo l = some (k, t)) :
    ∃ c r, l = List.replicate k '#' ++ c :: r ∧ c.isWhitespace = true ∧ 1 ≤ k ∧
      t = trim (c :: r) := by
  simp only [headInfo] at h
  split at h
  · cases h
  · split at h
    · rename_i c rest2 heq hcond
      rw [Option.some.injEq, Prod.mk.injEq] at h
      have hdw : l.dropWhile (fun x => decide (x = '#')) = c :: rest2 := by
        rw [← drop_takeWhile_length]
        exact heq
      have htw : l.takeWhile (fun x => decide (x = '#')) = List.replicate k '#' := by
        have hall : ∀ b ∈ l.takeWhile (fun x => decide (x = '#')), b = '#' := by
          intro b hb
          simpa using List.mem_takeWhile_imp hb
        have h3 := List.eq_replicate_of_mem hall
        rw [h3, ← h.1]
      refine ⟨c, rest2, ?_, hcond.2, h.1 ▸ hcond.1, ?_⟩
      · rw [← htw, ← hdw]
        exact (List.takeWhile_append_dropWhile _ _).symm
      · rw [← h.2, heq]
    · cases h

theorem headInfo_extend_none {u v l : Str} (hu : allWs u) (_hv : allWs v)
    (h : headInfo (ltrim (u ++ (l ++ v))) = none) : headInfo l = none := by
  cases hinfo : headInfo l with
  | none => rfl
  | some kt =>
    exfalso
    obtain ⟨k, t⟩ := kt
    obtain ⟨c, r, hl, hcw, hk, ht⟩ := headInfo_some_decomp hinfo
    obtain ⟨k', hk'⟩ : ∃ k', k = k' + 1 := ⟨k - 1, by omega⟩
    have hlt : ltrim (u ++ (l ++ v)) = l ++ v := by
      rw [ltrim_append_ws hu, hl, hk', List.replicate_succ]
      simp only [List.cons_append, List.append_assoc]
      exact ltrim_cons_not_ws (by decide)
    have h2 : headInfo (l ++ v) = some (k, trim (c :: (r ++ v))) := by
      rw [hl, List.append_assoc, List.cons_append]
      exact headInfo_replicate_ws hk hcw
    rw [hlt, h2] at h
    cases h

theorem headInfo_title_trim_not_dangling {l : Str} {k : Nat} {t : Str}
    (h : headInfo l = some (k, t)) (htne : t ≠ []) : danglingStart (trim l) = false := by
  obtain ⟨c, r, hl, hcw, hk, ht⟩ := headInfo_some_decomp h
  have hcne : ¬ c = '#' := fun h0 => by
    rw [h0] at hcw
    exact absurd hcw (by decide)
  have hrne : rtrim (c :: r) ≠ [] := by
    intro h0
    obtain ⟨w, hw, hdec0⟩ := rtrim_decomp (c :: r)
    rw [h0, List.nil_append] at hdec0
    have hall : allWs (c :: r) := hdec0 ▸ hw
    have ht0 : t = [] := by
      rw [ht]
      unfold trim
      rw [ltrim_eq_nil_of_allWs hall]
      rfl
    exact htne ht0
  obtain ⟨u2, ch, hu⟩ := (List.eq_nil_or_concat (rtrim (c :: r))).resolve_left hrne
  rw [List.concat_eq_append] at hu
  have hchw : ¬ ch.isWhitespace := rtrim_last_not_ws hu
  obtain ⟨w, hw, hdec⟩ := rtrim_decomp (c :: r)
  have hl2 : l = (List.replicate k '#' ++ rtrim (c :: r)) ++ w := by
    rw [hl]
    conv_lhs => rw [hdec]
    rw [List.append_assoc]
  obtain ⟨k', hk'⟩ : ∃ k', k = k' + 1 := ⟨k - 1, by omega⟩
  have hlt : ltrim l = l := by
    rw [hl, hk', List.replicate_succ, List.cons_append]
    exact ltrim_cons_not_ws (by decide)
  have hrt : rtrim l = List.replicate k '#' ++ rtrim (c :: r) := by
    rw [hl2, rtrim_append_ws hw, hu, ← List.append_assoc]
    exact rtrim_append_not_ws hchw
  have htr : trim l = List.replicate k '#' ++ rtrim (c :: r) := by
    unfold trim
    rw [hlt, hrt]
  obtain ⟨y, hy⟩ : ∃ y, rtrim (c :: r) = c :: y := by
    cases hq : rtrim (c :: r) with
    | nil => exact absurd hq hrne
    | cons x y =>
      have h3 : x :: (y ++ w) = c :: r := by
        rw [← List.cons_append, ← hq, ← hdec]
      injection h3 with hx h4
      refine ⟨y, ?_⟩
      rw [hx]
  have hdw : (List.replicate k '#' ++ c :: y).dropWhile (fun x => decide (x = '#')) =
      c :: y := by
    rw [← drop_takeWhile_length, takeWhile_hash_of_ne hcne k y, List.length_replicate,
      List.drop_append_of_le_length (by simp)]
    simp
  unfold danglingStart
  rw [htr, hy, hdw]
  have hmem : ch ∈ c :: y := by
    rw [← hy, hu]
    simp
  have hall2 : (c :: y).all Char.isWhitespace = false := by
    cases hq : (c :: y).all Char.isWhitespace with
    | false => rfl
    | true => exact absurd (List.all_eq_true.mp hq ch hmem) hchw
  rw [hall2, Bool.and_false]

theorem mem_joinLines {c : Char} :
    ∀ {L : List Str} {l : Str}, l ∈ L → c ∈ l → c ∈ joinLines L := by
  intro L
  induction L with
  | nil => intro l hl; cases hl
  | cons x rest ih =>
    intro l hl hc
    cases rest with
    | nil =>
      rcases List.mem_singleton.mp hl with rfl
      exact hc
    | cons y r =>
      rw [joinLines]
      rcases List.mem_cons.mp hl with rfl | hl2
      · exact List.mem_append.mpr (Or.inl hc)
      · exact List.mem_append.mpr (Or.inr (List.mem_cons_of_mem _ (ih hl2 hc)))

theorem allWs_line {w : Str} (hw : allWs w) {l : Str} (hl : l ∈ splitLines w) : allWs l := by
  intro c hc
  refine hw c ?_
  rw [← joinLines_splitLines w]
  exact mem_joinLines hl hc

theorem ltrim_lines (s : Str) :
    ∀ l' ∈ splitLines (ltrim s), ∃ l ∈ splitLines s, ∃ w, allWs w ∧ l = w ++ l' := by
  obtain ⟨w, hw, hs⟩ := ltrim_decomp s
  obtain ⟨W0, w1, hW⟩ :=
    (List.eq_nil_or_concat (splitLines w)).resolve_left (splitLines_ne_nil w)
  rw [List.concat_eq_append] at hW
  intro l' hl'
  have hsp : splitLines s = glueLines (splitLines w) (splitLines (ltrim s)) := by
    conv_lhs => rw [hs]
    exact splitLines_append w (ltrim s)
  cases hL : splitLines (ltrim s) with
  | nil => exact absurd hL (splitLines_ne_nil _)
  | cons lh lt =>
    rw [hL] at hl'
    rw [hL, hW] at hsp
    unfold glueLines at hsp
    simp only [List.dropLast_concat, List.getLastD_concat, List.headD_cons,
      List.tail_cons] at hsp
    have hw1 : allWs w1 := allWs_line hw (by rw [hW]; simp)
    rcases List.mem_cons.mp hl' with rfl | hmem
    · refine ⟨w1 ++ l', ?_, w1, hw1, rfl⟩
      rw [hsp]
      simp
    · refine ⟨l', ?_, [], allWs_nil, rfl⟩
      rw [hsp]
      simp [hmem]

theorem rtrim_lines (s : Str) :
    ∀ l' ∈ splitLines (rtrim s), ∃ l ∈ splitLines s, ∃ w, allWs w ∧ l = l' ++ w := by
  obtain ⟨w, hw, hs⟩ := rtrim_decomp s
  obtain ⟨R0, r1, hR⟩ :=
    (List.eq_nil_or_concat (splitLines (rtrim s))).resolve_left (splitLines_ne_nil _)
  rw [List.concat_eq_append] at hR
  intro l' hl'
  have hsp : splitLines s = glueLines (splitLines (rtrim s)) (splitLines w) := by
    conv_lhs => rw [hs]
    exact splitLines_append (rtrim s) w
  cases hW : splitLines w with
  | nil => exact absurd hW (splitLines_ne_nil _)
  | cons wh wt =>
    rw [hR, hW] at hsp
    unfold glueLines at hsp
    simp only [List.dropLast_concat, List.getLastD_concat, List.headD_cons,
      List.tail_cons] at hsp
    have hwh : allWs wh := allWs_line hw (by rw [hW]; simp)
    rw [hR] at hl'
    rcases List.mem_append.mp hl' with hmem | hmem
    · refine ⟨l', ?_, [], allWs_nil, by simp⟩
      rw [hsp]
      simp [hmem]
    · rcases List.mem_singleton.mp hmem with rfl
      refine ⟨l' ++ wh, ?_, wh, hwh, rfl⟩
      rw [hsp]
      simp

theorem trim_lines_none {s : Str} (h : ∀ l ∈ splitLines s, headInfo (ltrim l) = none) :
    ∀ l' ∈ splitLines (trim s), headInfo l' = none := by
  intro l' hl'
  have hl2 : l' ∈ splitLines (rtrim (ltrim s)) := hl'
  obtain ⟨l1, hl1, w1, hw1, he1⟩ := rtrim_lines (ltrim s) l' hl2
  obtain ⟨l0, hl0, w0, hw0, he0⟩ := ltrim_lines s l1 hl1
  have h0 := h l0 hl0
  apply headInfo_extend_none hw0 hw1
  rw [← he1, ← he0]
  exact h0

/-! ### Facts about the parsed sections of a well-formed document -/

theorem flatten_singletons {α : Type _} : ∀ l : List α, (l.map fun x => [x]).flatten = l := by
  intro l
  induction l with
  | nil => rfl
  | cons x xs ih => simp [ih]

theorem splitLines_joinLines_id {q : List Str} (hq : q ≠ []) (hnl : ∀ l ∈ q, '\n' ∉ l) :
    splitLines (joinLines q) = q := by
  rw [splitLines_joinLines_eq_join hq,
    List.map_congr_left fun l hl => splitLines_of_no_nl (hnl l hl)]
  exact flatten_singletons q

theorem trim_lines_not_dangling {s : Str}
    (h : ∀ l ∈ splitLines s, danglingStart (trim l) = false) :
    ∀ l' ∈ splitLines (trim s), danglingStart l' = false := by
  intro l' hl'
  obtain ⟨l1, hl1, w1, hw1, he1⟩ := rtrim_lines (ltrim s) l' hl'
  obtain ⟨l0, hl0, w0, hw0, he0⟩ := ltrim_lines s l1 hl1
  have h0 := h l0 hl0
  have heq : trim l0 = trim l' := by
    rw [he0, he1, trim_ws_append hw0, trim_append_ws hw1]
  cases hdl : danglingStart l' with
  | false => rfl
  | true =>
    have h2 := danglingStart_trim hdl
    rw [← heq, h0] at h2
    cases h2

theorem content_clean_of_lines {L : List Str} (hnl : ∀ l ∈ L, '\n' ∉ l)
    (hd : ∀ l ∈ L, danglingStart (trim l) = false) :
    ∀ l' ∈ splitLines (trim (joinLines L)), danglingStart l' = false := by
  cases L with
  | nil =>
    intro l' hl'
    rw [show trim (joinLines ([] : List Str)) = [] from rfl] at hl'
    rw [show splitLines ([] : Str) = [[]] from rfl] at hl'
    rcases List.mem_singleton.mp hl' with rfl
    decide
  | cons a L2 =>
    apply trim_lines_not_dangling
    rw [splitLines_joinLines_id (by simp) hnl]
    exact hd

theorem wellFormed_ok {d : Str} (h : wellFormed d = true) :
    ∀ p ∈ headingPairs d, p.2 ≠ [] ∧ hasSubstr endSentinel p.2 = false := by
  intro p hp
  obtain ⟨l, hl, hinfo⟩ := List.mem_filterMap.mp hp
  have hwl := List.all_eq_true.mp h l hl
  unfold wellFormedLine at hwl
  rw [hinfo] at hwl
  rw [Bool.and_eq_true, Bool.not_eq_true', decide_eq_true_eq] at hwl
  exact hwl

theorem wellFormed_ltrim_none {d l : Str} (h : wellFormed d = true)
    (hl : l ∈ splitLines d) (hn : headInfo l = none) : headInfo (ltrim l) = none := by
  have hwl := List.all_eq_true.mp h l hl
  unfold wellFormedLine at hwl
  rw [hn, Bool.and_eq_true] at hwl
  exact of_decide_eq_true hwl.1

theorem wellFormed_trimClean {d : Str} (h : wellFormed d = true) :
    ∀ l ∈ splitLines d, danglingStart (trim l) = false := by
  intro l hl
  have hwl := List.all_eq_true.mp h l hl
  unfold wellFormedLine at hwl
  cases hinfo : headInfo l with
  | none =>
    rw [hinfo, Bool.and_eq_true] at hwl
    simpa using hwl.2
  | some kt =>
    obtain ⟨k, t⟩ := kt
    rw [hinfo, Bool.and_eq_true, decide_eq_true_eq] at hwl
    exact headInfo_title_trim_not_dangling hinfo hwl.1

theorem wellFormed_noDangling {d : Str} (h : wellFormed d = true) : noDangling d = true :=
  noDangling_of_trimClean (wellFormed_trimClean h)

theorem wellFormed_id {d : Str} (h : wellFormed d = true) :
    mergeLines none (splitLines d ++ [endLine]) = splitLines d ++ [endLine] :=
  mergeId_of_noDangling (wellFormed_noDangling h)

theorem parsePre_mem {d : Str} (hnd : noDangling d = true) {l : Str} (hl : l ∈ parsePre d) :
    l ∈ splitLines d ∧ headInfo l = none := by
  unfold parsePre at hl
  rw [mergeId_of_noDangling hnd] at hl
  have hnone := (splitDoc_parts (splitLines d ++ [endLine])).2.1 l hl
  have hmem : l ∈ splitLines d ++ [endLine] := by
    have hparts := (splitDoc_parts (splitLines d ++ [endLine])).1
    rw [hparts]
    exact List.mem_append_left _ hl
  refine ⟨?_, hnone⟩
  rcases List.mem_append.mp hmem with hm | hm
  · exact hm
  · have hge := List.mem_singleton.mp hm
    rw [hge] at hnone
    rw [headInfo_endLine] at hnone
    cases hnone

theorem group_body_mem {d : Str} (hnd : noDangling d = true) {g : Str × List Str}
    (hg : g ∈ parseGroups d) {l : Str}
    (hl : l ∈ g.2) : l ∈ splitLines d ∧ headInfo l = none := by
  have hnone := (parseGroups_isSome hg).2 l hl
  unfold parseGroups at hg
  rw [mergeId_of_noDangling hnd] at hg
  have hg2 : g ∈ (splitDoc (splitLines d ++ [endLine])).2 :=
    (List.dropLast_sublist _).mem hg
  have hmem : l ∈ splitLines d ++ [endLine] := by
    have hparts := (splitDoc_parts (splitLines d ++ [endLine])).1
    rw [hparts]
    apply List.mem_append_right
    rw [List.mem_flatten]
    exact ⟨g.1 :: g.2, List.mem_map_of_mem _ hg2, by simp [hl]⟩
  refine ⟨?_, hnone⟩
  rcases List.mem_append.mp hmem with hm | hm
  · exact hm
  · have hge := List.mem_singleton.mp hm
    rw [hge] at hnone
    rw [headInfo_endLine] at hnone
    cases hnone

theorem preContent_no_dangling {d : Str}
    (hd : ∀ l ∈ splitLines d, danglingStart (trim l) = false) :
    ∀ l' ∈ splitLines (trim (joinLines (parsePre d))), danglingStart l' = false := by
  have hnd : noDangling d = true := noDangling_of_trimClean hd
  apply content_clean_of_lines
  · intro l hl
    exact no_nl_mem_splitLines l (parsePre_mem hnd hl).1
  · intro l hl
    exact hd l (parsePre_mem hnd hl).1

theorem parse_content_clean {d : Str}
    (hd : ∀ l ∈ splitLines d, danglingStart (trim l) = false) {e : SecId × Sec}
    (he : e ∈ parse_sections d) :
    ∀ l ∈ splitLines e.2.content, danglingStart l = false := by
  have hnd : noDangling d = true := noDangling_of_trimClean hd
  rw [parse_sections_eq'] at he
  have hmem := (List.mem_filter.mp he).1
  rcases List.mem_append.mp hmem with hm | hm
  · unfold introSecs at hm
    split at hm
    · rcases List.mem_singleton.mp hm with rfl
      exact preContent_no_dangling hd
    · cases hm
  · unfold bodySecs at hm
    obtain ⟨ie, hie, rfl⟩ := List.mem_map.mp hm
    have hgmem : ie.2 ∈ parseGroups d := by
      have h2 := List.mem_map_of_mem Prod.snd hie
      rwa [List.enum_map_snd] at h2
    show ∀ l ∈ splitLines (trim (joinLines ie.2.2)), danglingStart l = false
    apply content_clean_of_lines
    · intro l hl
      exact no_nl_mem_splitLines l (group_body_mem hnd hgmem hl).1
    · intro l hl
      exact hd l (group_body_mem hnd hgmem hl).1

theorem lookup_none_of_no_intro {l : List (SecId × Sec)} (h : ∀ e ∈ l, e.1 ≠ SecId.intro) :
    l.lookup SecId.intro = none := by
  induction l with
  | nil => rfl
  | cons e l ih =>
    obtain ⟨a, b⟩ := e
    rw [List.lookup]
    have ha : a ≠ SecId.intro := h (a, b) (by simp)
    have hbe : (SecId.intro == a) = false := by
      rw [beq_eq_false_iff_ne]
      exact fun hc => ha hc.symm
    rw [hbe]
    exact ih fun e he => h e (by simp [he])

theorem bodySecs_key_ne_intro {d : Str} {e : SecId × Sec} (he : e ∈ bodySecs d) :
    e.1 ≠ SecId.intro := by
  unfold bodySecs at he
  obtain ⟨ie, _, rfl⟩ := List.mem_map.mp he
  simp [groupSec]

theorem parse_lookup_intro (d : Str)
    (hs : ∀ p ∈ headingPairsM d, hasSubstr endSentinel p.2 = false) :
    (parse_sections d).lookup SecId.intro =
      if trim (joinLines (parsePre d)) ≠ [] then
        some ⟨0, [], trim (joinLines (parsePre d)), [], none⟩
      else none := by
  rw [parse_no_delete hs]
  unfold introSecs
  split
  · rw [List.cons_append, List.lookup]
    simp
  · rw [List.nil_append]
    exact lookup_none_of_no_intro fun e he => bodySecs_key_ne_intro he

theorem sortedNonIntro_parse (d : Str)
    (hs : ∀ p ∈ headingPairsM d, hasSubstr endSentinel p.2 = false) :
    sortedNonIntro (parse_sections d) = bodySecs d := by
  unfold sortedNonIntro
  rw [sections_filter_nonintro d hs]
  apply List.Sorted.insertionSort_eq
  rw [List.Sorted]
  exact (enum_pairwise_fst' d).imp fun hab => Nat.le_of_lt hab

theorem parse_hIntro (d : Str) :
    ∀ s, (parse_sections d).lookup SecId.intro = some s →
      s.content ≠ [] ∧ trim s.content = s.content := by
  intro s hsl
  have hm := lookup_mem hsl
  obtain ⟨hc1, _, _, hc4, _⟩ := parse_entry_facts hm
  exact ⟨(hc4 rfl).2.2.1, hc1⟩

theorem parse_hS (d : Str) (hok : ∀ p ∈ headingPairsM d, p.2 ≠ []) :
    ∀ e ∈ sortedNonIntro (parse_sections d),
      trim e.2.content = e.2.content ∧ trim e.2.title = e.2.title ∧
      e.2.title ≠ [] ∧ 1 ≤ e.2.level ∧ '\n' ∉ e.2.title := by
  intro e he
  obtain ⟨hem, hei⟩ := sortedNonIntro_mem he
  obtain ⟨hc1, hc2, hc3, _, hc5⟩ := parse_entry_facts hem
  obtain ⟨hl, i, _, _, hpair⟩ := hc5 hei
  exact ⟨hc1, hc2, hok _ hpair, hl, hc3⟩

theorem bodySec_facts {d : Str} (hwf : wellFormed d = true) {e : SecId × Sec}
    (he : e ∈ bodySecs d) :
    headInfo (headerLineOf e.2) = some (e.2.level, e.2.title) ∧
      trim e.2.content = e.2.content ∧
      ∀ l ∈ cLines e, headInfo l = none := by
  unfold bodySecs at he
  obtain ⟨ie, hie, rfl⟩ := List.mem_map.mp he
  have hgmem : ie.2 ∈ parseGroups d := by
    have h2 := List.mem_map_of_mem Prod.snd hie
    rwa [List.enum_map_snd] at h2
  obtain ⟨hsome, hnone⟩ := parseGroups_isSome hgmem
  obtain ⟨⟨k, t⟩, hkt⟩ := Option.isSome_iff_exists.mp hsome
  obtain ⟨hk, ht, hsub⟩ := headInfo_facts hkt
  have hlev : (groupSec ie).2.level = k := by simp [groupSec, hkt]
  have htit : (groupSec ie).2.title = t := by simp [groupSec, hkt]
  have hcont : (groupSec ie).2.content = trim (joinLines ie.2.2) := rfl
  refine ⟨?_, ?_, ?_⟩
  · rw [headerLineOf_eq, hlev, htit]
    exact headInfo_headerLine hk ht
  · rw [hcont]
    exact trim_idem _
  · intro l hl
    unfold cLines at hl
    by_cases hce : (groupSec ie).2.content = []
    · rw [if_neg (by simp [hce])] at hl
      cases hl
    · rw [if_pos hce] at hl
      rw [hcont] at hl
      have hg2ne : ie.2.2 ≠ [] := by
        intro h0
        rw [hcont, h0] at hce
        exact hce (by rfl)
      have hg2nl : ∀ l0 ∈ ie.2.2, '\n' ∉ l0 := by
        intro l0 hl0
        exact no_nl_mem_splitLines l0 (group_body_mem (wellFormed_noDangling hwf) hgmem hl0).1
      have hbase : ∀ l0 ∈ splitLines (joinLines ie.2.2), headInfo (ltrim l0) = none := by
        rw [splitLines_joinLines_id hg2ne hg2nl]
        intro l0 hl0
        obtain ⟨hmem0, hnone0⟩ := group_body_mem (wellFormed_noDangling hwf) hgmem hl0
        exact wellFormed_ltrim_none hwf hmem0 hnone0
      exact trim_lines_none hbase l hl

theorem groupKey_block {d : Str} (hwf : wellFormed d = true) {e : SecId × Sec}
    (he : e ∈ bodySecs d) :
    groupKey (headerLineOf e.2, cLines e ++ [[]]) = secKey e ∧
      groupKey (headerLineOf e.2, cLines e) = secKey e := by
  obtain ⟨hh, hct, _⟩ := bodySec_facts hwf he
  unfold groupKey secKey
  simp only [hh, Option.getD_some]
  by_cases hce : e.2.content = []
  · unfold cLines
    rw [if_neg (by simp [hce])]
    rw [hce]
    exact ⟨rfl, rfl⟩
  · unfold cLines
    rw [if_pos (by simpa using hce)]
    constructor
    · rw [joinLines_concat [] (splitLines_ne_nil _), joinLines_splitLines]
      rw [show (e.2.content ++ '\n' :: [] : Str) = e.2.content ++ ['\n'] from rfl]
      rw [trim_append_nl, hct]
    · rw [joinLines_splitLines, hct]

theorem enumFrom_groupSec_core :
    ∀ (L1 : List (Str × List Str)) (k : Nat) (L2 : List (Str × List Str)),
      L1.map groupKey = L2.map groupKey →
      (L1.enumFrom k).map (secCore ∘ groupSec) = (L2.enumFrom k).map (secCore ∘ groupSec) := by
  intro L1
  induction L1 with
  | nil =>
    intro k L2 h
    cases L2 with
    | nil => rfl
    | cons g2 T2 => simp at h
  | cons g1 T1 ih =>
    intro k L2 h
    cases L2 with
    | nil => simp at h
    | cons g2 T2 =>
      simp only [List.map_cons, List.cons.injEq] at h
      obtain ⟨hg, hT⟩ := h
      simp only [List.enumFrom, List.map_cons]
      rw [ih (k + 1) T2 hT]
      have h1 : (groupKey g1).1 = (groupKey g2).1 := by rw [hg]
      have h2 : (groupKey g1).2 = (groupKey g2).2 := by rw [hg]
      unfold groupKey at h1 h2
      dsimp only at h1 h2
      simp only [Function.comp, secCore, groupSec]
      rw [h1, h2]

theorem parseGroups_secKey (d : Str) :
    (parseGroups d).map groupKey = (bodySecs d).map secKey := by
  unfold bodySecs
  rw [List.map_map, show (secKey ∘ groupSec) =
    (fun ie : Nat × (Str × List Str) => groupKey ie.2) from funext fun ie => rfl,
    map_enum_snd groupKey]

theorem preContent_lines_none (d : Str) (hwf : wellFormed d = true)
    (hne : trim (joinLines (parsePre d)) ≠ []) :
    ∀ l ∈ splitLines (trim (joinLines (parsePre d))), headInfo l = none := by
  apply trim_lines_none
  have hpne : parsePre d ≠ [] := by
    intro h0
    rw [h0] at hne
    exact hne rfl
  have hnl : ∀ l ∈ parsePre d, '\n' ∉ l := fun l hl =>
    no_nl_mem_splitLines l (parsePre_mem (wellFormed_noDangling hwf) hl).1
  rw [splitLines_joinLines_id hpne hnl]
  intro l0 hl0
  obtain ⟨hm0, hn0⟩ := parsePre_mem (wellFormed_noDangling hwf) hl0
  exact wellFormed_ltrim_none hwf hm0 hn0

theorem introLines_none (d : Str) (hwf : wellFormed d = true)
    (hsent : ∀ p ∈ headingPairsM d, hasSubstr endSentinel p.2 = false) :
    ∀ l ∈ introLinesOf (parse_sections d), headInfo l = none := by
  intro l hl
  unfold introLinesOf at hl
  split at hl
  · rename_i s hlook
    rcases List.mem_append.mp hl with hm | hm
    · rw [parse_lookup_intro d hsent] at hlook
      split at hlook
      · rename_i hcne
        rw [Option.some_inj] at hlook
        rw [← hlook] at hm
        dsimp only at hm
        rw [if_pos hcne] at hm
        exact preContent_lines_none d hwf hcne l hm
      · cases hlook
    · rcases List.mem_singleton.mp hm with rfl
      exact headInfo_nil
  · cases hl

theorem splitDoc_R (d : Str) (hwf : wellFormed d = true)
    (hsent : ∀ p ∈ headingPairsM d, hasSubstr endSentinel p.2 = false)
    (htne : ∀ p ∈ headingPairsM d, p.2 ≠ [])
    {init : List (SecId × Sec)} {elast : SecId × Sec}
    (hsplit : bodySecs d = init ++ [elast]) :
    splitDoc (splitLines (reassemble (parse_sections d)) ++ [endLine]) =
      (introLinesOf (parse_sections d),
        (init.map fun e => (headerLineOf e.2, cLines e ++ [[]])) ++
          [(headerLineOf elast.2, cLines elast), (endLine, [])]) := by
  have hsni := sortedNonIntro_parse d hsent
  have hne : sortedNonIntro (parse_sections d) ≠ [] := by
    rw [hsni, hsplit]
    simp
  have hT := reassemble_splitLines (parse_sections d) (parse_hIntro d) (parse_hS d htne) hne
  rw [hsni, hsplit] at hT
  have hA : splitLines (reassemble (parse_sections d)) =
      introLinesOf (parse_sections d) ++
        ((init.map secLines).flatten ++ headerLineOf elast.2 :: cLines elast) := by
    have h0 : splitLines (reassemble (parse_sections d)) ++ [([] : Str)] =
        (introLinesOf (parse_sections d) ++
          ((init.map secLines).flatten ++ headerLineOf elast.2 :: cLines elast)) ++
          [([] : Str)] := by
      rw [hT, List.map_append, List.flatten_append]
      simp only [List.map_cons, List.map_nil, List.flatten_cons, List.flatten_nil,
        List.append_nil]
      rw [show secLines elast = headerLineOf elast.2 :: (cLines elast ++ [[]]) from rfl]
      simp [List.append_assoc]
    exact List.append_left_injective [([] : Str)] h0
  have hgs : ∀ g ∈ (init.map fun e => (headerLineOf e.2, cLines e ++ [[]])) ++
      [(headerLineOf elast.2, cLines elast), (endLine, [])],
      (headInfo g.1).isSome ∧ ∀ l ∈ g.2, headInfo l = none := by
    intro g hg
    rcases List.mem_append.mp hg with hg1 | hg1
    · obtain ⟨e, he, rfl⟩ := List.mem_map.mp hg1
      have heB : e ∈ bodySecs d := by
        rw [hsplit]
        exact List.mem_append_left _ he
      obtain ⟨hh, _, hcl⟩ := bodySec_facts hwf heB
      refine ⟨by rw [hh]; rfl, ?_⟩
      intro l hlmem
      rcases List.mem_append.mp hlmem with hm | hm
      · exact hcl l hm
      · rcases List.mem_singleton.mp hm with rfl
        exact headInfo_nil
    · rcases List.mem_cons.mp hg1 with rfl | hg2
      · have heB : elast ∈ bodySecs d := by
          rw [hsplit]
          simp
        obtain ⟨hh, _, hcl⟩ := bodySec_facts hwf heB
        exact ⟨by rw [hh]; rfl, hcl⟩
      · rcases List.mem_singleton.mp hg2 with rfl
        refine ⟨by rw [headInfo_endLine]; rfl, ?_⟩
        intro l hlm
        cases hlm
  have hpre := introLines_none d hwf hsent
  have hspec := splitDoc_spec _ hgs (introLinesOf (parse_sections d)) hpre
  have harg : splitLines (reassemble (parse_sections d)) ++ [endLine] =
      introLinesOf (parse_sections d) ++
        (((init.map fun e : SecId × Sec => (headerLineOf e.2, cLines e ++ [[]])) ++
          [(headerLineOf elast.2, cLines elast), (endLine, [])]).map fun g :
            Str × List Str => g.1 :: g.2).flatten := by
    have hsecmap : List.map secLines init = List.map (fun e : SecId × Sec =>
        headerLineOf e.2 :: (cLines e ++ [[]])) init :=
      List.map_congr_left fun e he => rfl
    have hcompmap : List.map (fun g : Str × List Str => g.1 :: g.2)
        (List.map (fun e : SecId × Sec => (headerLineOf e.2, cLines e ++ [[]])) init) =
        List.map (fun e : SecId × Sec => headerLineOf e.2 :: (cLines e ++ [[]])) init := by
      rw [List.map_map]
      exact List.map_congr_left fun e he => rfl
    rw [hA, hsecmap]
    simp only [List.map_append, List.flatten_append, hcompmap,
      List.map_cons, List.map_nil, List.flatten_cons, List.flatten_nil, List.append_nil]
    simp [List.append_assoc]
  rw [harg]
  exact hspec

theorem parseR_structure (d : Str) (hwf : wellFormed d = true) :
    introSecs (reassemble (parse_sections d)) = introSecs d ∧
    (parseGroups (reassemble (parse_sections d))).map groupKey =
      (parseGroups d).map groupKey := by
  have hok := wellFormed_ok hwf
  have hMd : headingPairsM d = headingPairs d := headingPairsM_eq d (wellFormed_id hwf)
  have hsent : ∀ p ∈ headingPairsM d, hasSubstr endSentinel p.2 = false := by
    rw [hMd]
    exact fun p hp => (hok p hp).2
  have htne : ∀ p ∈ headingPairsM d, p.2 ≠ [] := by
    rw [hMd]
    exact fun p hp => (hok p hp).1
  have hm : parse_sections d = introSecs d ++ bodySecs d := parse_no_delete hsent
  by_cases hbody : bodySecs d = []
  · have hhp : headingPairs d = [] := by
      rw [← hMd, ← bodySecs_pairs d, hbody]
      rfl
    obtain ⟨hpreE, hpg, _⟩ := headingPairs_nil_parse d (wellFormed_id hwf) hhp
    have hm2 : parse_sections d = introSecs d := by
      rw [hm, hbody, List.append_nil]
    by_cases hc : trim (joinLines (parsePre d)) = []
    · have hm3 : parse_sections d = [] := by
        rw [hm2]
        unfold introSecs
        rw [if_neg (by simpa using hc)]
      rw [hm3]
      have hR : reassemble ([] : List (SecId × Sec)) = [] := by decide
      rw [hR]
      constructor
      · have h1 : introSecs ([] : Str) = [] := by decide
        have h2 : introSecs d = [] := by
          unfold introSecs
          rw [if_neg (by simpa using hc)]
        rw [h1, h2]
      · have h1 : parseGroups ([] : Str) = [] := by decide
        rw [h1, hpg]
    · have hm3 : parse_sections d =
          [(SecId.intro, ⟨0, [], trim (joinLines (parsePre d)), [], none⟩)] := by
        rw [hm2]
        unfold introSecs
        rw [if_pos hc]
      have hR : reassemble (parse_sections d) = trim (joinLines (parsePre d)) := by
        rw [hm3]
        unfold reassemble
        have h1 : reassembleParts
            [(SecId.intro, (⟨0, [], trim (joinLines (parsePre d)), [], none⟩ : Sec))] =
            [trim (joinLines (parsePre d)), []] := by
          unfold reassembleParts introP sortedNonIntro
          simp [List.lookup, List.insertionSort, hc]
        rw [h1]
        rw [show joinLines [trim (joinLines (parsePre d)), ([] : Str)] =
          trim (joinLines (parsePre d)) ++ ['\n'] from rfl]
        rw [trim_append_nl, trim_idem]
      have hhpc : headingPairs (trim (joinLines (parsePre d))) = [] := by
        unfold headingPairs
        apply List.filterMap_eq_nil_iff.mpr
        exact preContent_lines_none d hwf hc
      have hndc : noDangling (trim (joinLines (parsePre d))) = true :=
        noDangling_iff.mpr (preContent_no_dangling (wellFormed_trimClean hwf))
      obtain ⟨hpreC, hpgC, _⟩ := headingPairs_nil_parse _ (mergeId_of_noDangling hndc) hhpc
      rw [hR]
      constructor
      · unfold introSecs
        rw [hpreC, joinLines_splitLines, trim_idem]
      · rw [hpgC, hpg]
  · obtain ⟨init, elast, hsplit⟩ := (List.eq_nil_or_concat (bodySecs d)).resolve_left hbody
    rw [List.concat_eq_append] at hsplit
    have hsd := splitDoc_R d hwf hsent htne hsplit
    have hndR : noDangling (reassemble (parse_sections d)) = true :=
      reassemble_no_dangling _ (parse_hIntro d) (parse_hS d htne)
        fun e he => parse_content_clean (wellFormed_trimClean hwf) he
    have hpreR : parsePre (reassemble (parse_sections d)) =
        introLinesOf (parse_sections d) := by
      unfold parsePre
      rw [mergeId_of_noDangling hndR, hsd]
    have hpgR : parseGroups (reassemble (parse_sections d)) =
        (init.map fun e => (headerLineOf e.2, cLines e ++ [[]])) ++
          [(headerLineOf elast.2, cLines elast)] := by
      unfold parseGroups
      rw [mergeId_of_noDangling hndR, hsd]
      rw [show (init.map fun e : SecId × Sec => (headerLineOf e.2, cLines e ++ [[]])) ++
          [(headerLineOf elast.2, cLines elast), (endLine, ([] : List Str))] =
          ((init.map fun e : SecId × Sec => (headerLineOf e.2, cLines e ++ [[]])) ++
            [(headerLineOf elast.2, cLines elast)]) ++ [(endLine, ([] : List Str))] from by
        simp]
      rw [List.dropLast_concat]
    constructor
    · -- introSecs R = introSecs d
      by_cases hc : trim (joinLines (parsePre d)) = []
      · have hlook : (parse_sections d).lookup SecId.intro = none := by
          rw [parse_lookup_intro d hsent, if_neg (by simpa using hc)]
        have hIL : introLinesOf (parse_sections d) = [] := by
          unfold introLinesOf
          rw [hlook]
        unfold introSecs
        rw [hpreR, hIL]
        rw [show joinLines ([] : List Str) = [] from rfl]
        rw [show trim ([] : Str) = [] from rfl]
        rw [if_neg (by simp), if_neg (by simpa using hc)]
      · have hlook : (parse_sections d).lookup SecId.intro =
            some ⟨0, [], trim (joinLines (parsePre d)), [], none⟩ := by
          rw [parse_lookup_intro d hsent, if_pos hc]
        have hIL : introLinesOf (parse_sections d) =
            splitLines (trim (joinLines (parsePre d))) ++ [[]] := by
          unfold introLinesOf
          rw [hlook]
          dsimp only
          rw [if_pos hc]
        unfold introSecs
        rw [hpreR, hIL]
        rw [joinLines_concat [] (splitLines_ne_nil _), joinLines_splitLines]
        rw [trim_append_nl, trim_idem]
    · -- groupKey maps agree
      have h1 : List.map groupKey (List.map (fun e : SecId × Sec =>
          (headerLineOf e.2, cLines e ++ [[]])) init) = List.map secKey init := by
        rw [List.map_map]
        apply List.map_congr_left
        intro e he
        have heB : e ∈ bodySecs d := by
          rw [hsplit]
          exact List.mem_append_left _ he
        exact (groupKey_block hwf heB).1
      have heB2 : elast ∈ bodySecs d := by
        rw [hsplit]
        simp
      have h2 : List.map groupKey [(headerLineOf elast.2, cLines elast)] = [secKey elast] := by
        simp only [List.map_cons, List.map_nil]
        rw [(groupKey_block hwf heB2).2]
      rw [hpgR, List.map_append, h1, h2, parseGroups_secKey d, hsplit, List.map_append]
      simp

/-- C3: for every document consisting only of well-formed heading lines and
bodies (headings have nonempty, sentinel-free titles; body lines neither turn
into headings after the strip applied to section contents nor strip to a bare
run of `#` marks), `reassemble (parse_sections d)` is semantically equivalent
to `d`: the regex matches `parse_sections` finds in it carry exactly the same
ordered (level, title) heading pairs, and re-parsing it yields sections with
the same identities, levels, titles, stripped body contents and original
positions — the two documents differ at most in blank-line counts and leading
or trailing whitespace, which the parse normalizes away. -/
theorem parse_reassemble_round_trip (d : Str) (h : wellFormed d = true) :
    headingPairsM (reassemble (parse_sections d)) = headingPairsM d ∧
    (parse_sections (reassemble (parse_sections d))).map secCore =
      (parse_sections d).map secCore := by
  obtain ⟨hintro, hgroups⟩ := parseR_structure d h
  have hok := wellFormed_ok h
  have hMd : headingPairsM d = headingPairs d := headingPairsM_eq d (wellFormed_id h)
  have hsent : ∀ p ∈ headingPairsM d, hasSubstr endSentinel p.2 = false := by
    rw [hMd]
    exact fun p hp => (hok p hp).2
  have hhp : headingPairsM (reassemble (parse_sections d)) = headingPairsM d := by
    unfold headingPairsM
    have h1 : ∀ L : List (Str × List Str),
        L.map (fun g => (headInfo g.1).getD (0, [])) = (L.map groupKey).map Prod.fst := by
      intro L
      rw [List.map_map]
      rfl
    rw [h1, h1, hgroups]
  refine ⟨hhp, ?_⟩
  have hsentR : ∀ p ∈ headingPairsM (reassemble (parse_sections d)),
      hasSubstr endSentinel p.2 = false := by
    rw [hhp]
    exact hsent
  have hbody : (bodySecs (reassemble (parse_sections d))).map secCore =
      (bodySecs d).map secCore := by
    unfold bodySecs
    rw [List.map_map, List.map_map, List.enum_eq_enumFrom, List.enum_eq_enumFrom]
    exact enumFrom_groupSec_core _ 0 _ hgroups
  rw [parse_no_delete hsentR, List.map_append, hintro, hbody, parse_no_delete hsent,
    List.map_append]

set_option maxRecDepth 8000 in
/-- C3 witness: the round-trip law evaluated on the specification's scenario
document. -/
theorem parse_reassemble_round_trip_witness :
    headingPairsM (reassemble (parse_sections
        ("# Title\n\n## Intro\n\nHello.\n\n## Facts\n\nA.\n" : String).data)) =
      headingPairsM ("# Title\n\n## Intro\n\nHello.\n\n## Facts\n\nA.\n" : String).data ∧
    (parse_sections (reassemble (parse_sections
        ("# Title\n\n## Intro\n\nHello.\n\n## Facts\n\nA.\n" : String).data))).map secCore =
      (parse_sections
        ("# Title\n\n## Intro\n\nHello.\n\n## Facts\n\nA.\n" : String).data).map secCore :=
  parse_reassemble_round_trip ("# Title\n\n## Intro\n\nHello.\n\n## Facts\n\nA.\n" : String).data
    (by decide)

/-! ### Claim C4: structure preservation on the recovery path -/

/-- C4, amended: on the exception path (the execution capability raises), for
a document whose regex matches all have nonempty, sentinel-free titles and
none of whose lines strips to a bare run of `#` marks, and provided every
extracted task output is likewise free of such bare-`#` lines, the output
document contains no cross-line regex match and the ordered (level, title)
pairs of the header matches in the input occur as a subsequence of those of
the output: the recovery map only replaces section contents, so every
original heading survives in order.  On the success path no such law holds,
as the kickoff text is returned without a structural check. -/
theorem enhance_structure_preservation (sim : SimOutcome) (d : Str)
    (h1 : sim.kickoff = none) (h2 : headingsOk d = true)
    (h3 : ∀ t : Str, some t ∈ sim.linkOutputs →
      noDangling (extract_final_content t) = true) :
    noDangling (enhance_content sim d) = true ∧
      (headingPairsM d).Sublist (headingPairsM (enhance_content sim d)) := by
  rw [headingsOk, Bool.and_eq_true] at h2
  have hTC : ∀ l ∈ splitLines d, danglingStart (trim l) = false := by
    intro l hl
    have h4 := List.all_eq_true.mp h2.1 l hl
    simpa using h4
  have hnd : noDangling d = true := noDangling_of_trimClean hTC
  have hMd : headingPairsM d = headingPairs d :=
    headingPairsM_eq d (mergeId_of_noDangling hnd)
  have hok : ∀ p ∈ headingPairs d, p.2 ≠ [] ∧ hasSubstr endSentinel p.2 = false := by
    intro p hp
    have h4 := List.all_eq_true.mp h2.2 p hp
    simp only [okHeading, Bool.and_eq_true, Bool.not_eq_true', decide_eq_true_eq] at h4
    exact h4
  have hokM : ∀ p ∈ headingPairsM d, p.2 ≠ [] ∧ hasSubstr endSentinel p.2 = false := by
    rw [hMd]
    exact hok
  have hCrec : ∀ e ∈ recoverSections (chainOf (parse_sections d)) sim (parse_sections d),
      ∀ l ∈ splitLines e.2.content, danglingStart l = false := by
    intro e he
    rw [recoverSections_eq] at he
    rcases List.mem_append.mp he with hm | hm
    · obtain ⟨c, hc, _, _, _, _, hcont⟩ := recoverTasks_mem hm
      have hcs : c ∈ parse_sections d := chainOf_subset hc
      rcases hcont with hcc | hcc
      · rw [hcc]
        exact parse_content_clean hTC hcs
      · obtain ⟨_, _, t, hts, hct⟩ := hcc
        rw [hct]
        intro l hl
        exact noDangling_iff.mp (h3 t hts) l hl
    · exact parse_content_clean hTC (List.mem_of_mem_filter hm)
  have hIntro : ∀ s, (recoverSections (chainOf (parse_sections d)) sim
      (parse_sections d)).lookup SecId.intro = some s →
      s.content ≠ [] ∧ trim s.content = s.content := by
    intro s hs
    have hm := lookup_mem hs
    obtain ⟨hc1, _, _, hc4, _⟩ := recover_entry_facts hm
    exact ⟨hc4 rfl, hc1⟩
  have hS : ∀ e ∈ sortedNonIntro (recoverSections (chainOf (parse_sections d)) sim
      (parse_sections d)), trim e.2.content = e.2.content ∧
      trim e.2.title = e.2.title ∧ e.2.title ≠ [] ∧ 1 ≤ e.2.level ∧ '\n' ∉ e.2.title := by
    intro e he
    obtain ⟨hem, hei⟩ := sortedNonIntro_mem he
    obtain ⟨hc1, hc2, hc3, _, hc5⟩ := recover_entry_facts hem
    obtain ⟨hl, hp⟩ := hc5 hei
    exact ⟨hc1, hc2, (hokM _ hp).1, hl, hc3⟩
  have hndR : noDangling (reassemble (recoverSections (chainOf (parse_sections d)) sim
      (parse_sections d))) = true :=
    reassemble_no_dangling _ hIntro hS hCrec
  simp only [enhance_content, h1]
  split
  · rw [reassemble_trim]
    refine ⟨hndR, ?_⟩
    by_cases hhp : headingPairsM d = []
    · rw [hhp]
      exact List.nil_sublist _
    · have hmeta := recover_meta_eq sim d fun p hp => (hokM p hp).2
      have hlt : (sortedNonIntro (recoverSections (chainOf (parse_sections d)) sim
          (parse_sections d))).map (fun e => (e.2.level, e.2.title)) = headingPairsM d := by
        have hcomp : ((fun t : SecId × Nat × Str × Option Nat => (t.2.1, t.2.2.1)) ∘ secMeta) =
            (fun e : SecId × Sec => (e.2.level, e.2.title)) := by
          funext e
          rfl
        have hmm : ∀ l : List (SecId × Sec), l.map (fun e => (e.2.level, e.2.title)) =
            (l.map secMeta).map (fun t => (t.2.1, t.2.2.1)) := by
          intro l
          rw [List.map_map, hcomp]
        rw [hmm, hmeta, ← hmm, bodySecs_pairs]
      have hne : sortedNonIntro (recoverSections (chainOf (parse_sections d)) sim
          (parse_sections d)) ≠ [] := by
        intro h0
        rw [h0] at hlt
        exact hhp hlt.symm
      have hsub := headingPairs_reassemble _ hIntro hS hne
      rw [hlt] at hsub
      have hMR : headingPairsM (reassemble (recoverSections (chainOf (parse_sections d)) sim
          (parse_sections d))) = headingPairs (reassemble (recoverSections
            (chainOf (parse_sections d)) sim (parse_sections d))) :=
        headingPairsM_eq _ (mergeId_of_noDangling hndR)
      rw [← hMR] at hsub
      exact hsub
  · exact ⟨hnd, List.Sublist.refl _⟩

set_option maxRecDepth 8000 in
/-- C4 witness: the amended structure-preservation law evaluated on the
specification's scenario document with a totally failing capability. -/
theorem enhance_structure_preservation_witness :
    noDangling (enhance_content ⟨none, [], false⟩
        ("# Title\n\n## Intro\n\nHello.\n\n## Facts\n\nA.\n" : String).data) = true ∧
      (headingPairsM ("# Title\n\n## Intro\n\nHello.\n\n## Facts\n\nA.\n" : String).data).Sublist
        (headingPairsM (enhance_content ⟨none, [], false⟩
          ("# Title\n\n## Intro\n\nHello.\n\n## Facts\n\nA.\n" : String).data)) :=
  enhance_structure_preservation ⟨none, [], false⟩
    ("# Title\n\n## Intro\n\nHello.\n\n## Facts\n\nA.\n" : String).data rfl (by decide)
    (fun t ht => absurd ht (List.not_mem_nil _))

end ImproveDoc
